import Mathlib

/-!
Verification of the game-tree search logic in `players.py`: the plain minimax
player (`MinMaxPlayer.make_move`) and the alpha-beta player
(`AlphaBetaPlayer.make_move`).

The Board and the Heuristic are external collaborators (spec, section 3); the
searches only use `width`, `is_valid`, `get_new_board`, and the heuristic's
`winning` and `evaluate_board`.  We therefore embed the searches over an
abstract record `Game` packaging exactly those operations (with `game_n`
folded into `winning`, as both are fixed for a player), and instantiate it
with a concrete column-stack board model for executable witnesses.

Python's recursion is embedded with an explicit fuel parameter that decreases
by one per ply; the wrapper functions supply `emptyCells b + 1` fuel, which is
exact: each applied move fills one cell, and a board with no empty cell has no
valid column and is terminal, so the fuel-exhausted branch is never reached by
the wrappers.  The heuristic's `eval_count` side effect is modelled by an
explicit `evals` field threaded through the outputs (spec, section 9, suggests
exactly this state-passing view), together with instrumentation fields: `md`
(the length of the longest chain of nested `rec` calls), `cut` (some
`alpha >= beta` break executed), `pruned` (some break skipped a remaining
valid column), and at the root `pairs` (the `(column, value)` pairs examined
by the root loop, in order).
-/

/-- External collaborator contract used by both players: the Board operations
and the heuristic, with `game_n` folded into `winning`. -/
structure Game (β : Type) where
  width : β → Nat
  is_valid : β → Nat → Bool
  get_new_board : β → Nat → Nat → β
  winning : β → Int
  evaluate_board : Nat → β → Int

/-- Opponent id: `2 if self.player_id == 1 else 1`. -/
def opponentOf (player_id : Nat) : Nat :=
  if player_id = 1 then 2 else 1

/-- Sentinel used by the source as infinity: `10**9`. -/
def BIG : Int := 10 ^ 9

/-- Shared termination predicate `terminal_or_depth(b, depth)`:
winner found, `depth == 0`, or no valid column. -/
def terminal_or_depth {β : Type} (g : Game β) (b : β) (depth : Int) : Bool :=
  (g.winning b != 0) || (depth == 0) ||
    !((List.range (g.width b)).any (fun c => g.is_valid b c))

/-- Output of the minimax recursive evaluator: the returned value, the number
of heuristic leaf evaluations, and the longest chain of nested `rec` calls. -/
structure MMOut where
  value : Int
  evals : Nat
  md : Nat
  deriving Repr, DecidableEq

/-- Maximizing-ply loop of `MinMaxPlayer.make_move.rec`:
`best = max(best, rec(b.get_new_board(c, self.player_id), depth-1, False))`
over valid columns, accumulating evaluation counts and call-chain depth. -/
def mmMaxLoop {β : Type} (g : Game β) (pid : Nat) (f : β → MMOut) (b : β) :
    List Nat → Int → Nat → Nat → MMOut
  | [], best, ev, m => ⟨best, ev, m⟩
  | c :: rest, best, ev, m =>
    if g.is_valid b c then
      let r := f (g.get_new_board b c pid)
      mmMaxLoop g pid f b rest (max best r.value) (ev + r.evals) (max m r.md)
    else
      mmMaxLoop g pid f b rest best ev m

/-- Minimizing-ply loop of `MinMaxPlayer.make_move.rec`:
`best = min(best, rec(b.get_new_board(c, opponent), depth-1, True))`. -/
def mmMinLoop {β : Type} (g : Game β) (opp : Nat) (f : β → MMOut) (b : β) :
    List Nat → Int → Nat → Nat → MMOut
  | [], best, ev, m => ⟨best, ev, m⟩
  | c :: rest, best, ev, m =>
    if g.is_valid b c then
      let r := f (g.get_new_board b c opp)
      mmMinLoop g opp f b rest (min best r.value) (ev + r.evals) (max m r.md)
    else
      mmMinLoop g opp f b rest best ev m

/-- Recursive evaluator `rec(b, depth, maximizing)` of `MinMaxPlayer.make_move`,
with fuel.  A leaf evaluation contributes one `evals` tick, mirroring the
`eval_count` increment inside `heuristic.evaluate_board`. -/
def mmRec {β : Type} (g : Game β) (pid opp : Nat) :
    Nat → β → Int → Bool → MMOut
  | 0, b, _, _ => ⟨g.evaluate_board pid b, 1, 1⟩
  | fuel + 1, b, depth, maximizing =>
    if terminal_or_depth g b depth then
      ⟨g.evaluate_board pid b, 1, 1⟩
    else if maximizing then
      let L := mmMaxLoop g pid (fun b2 => mmRec g pid opp fuel b2 (depth - 1) false)
        b (List.range (g.width b)) (-BIG) 0 0
      ⟨L.value, L.evals, L.md + 1⟩
    else
      let L := mmMinLoop g opp (fun b2 => mmRec g pid opp fuel b2 (depth - 1) true)
        b (List.range (g.width b)) BIG 0 0
      ⟨L.value, L.evals, L.md + 1⟩

/-- Result of the root decision loop of `MinMaxPlayer.make_move`: the returned
column (`-1` sentinel when `best_col is None`), the root best value, the
leaf-evaluation count, the longest nested `rec` chain spawned by the loop, and
the `(column, value)` pairs examined in order. -/
structure MMRoot where
  col : Int
  value : Int
  evals : Nat
  md : Nat
  pairs : List (Nat × Int)
  deriving Repr, DecidableEq

/-- Root loop of `MinMaxPlayer.make_move`: ascending columns, update on
strictly greater value, sentinel `-1` when nothing was ever selected. -/
def mmRootLoop {β : Type} (g : Game β) (pid : Nat) (f : β → MMOut) (b : β) :
    List Nat → Int → Option Nat → Nat → Nat → List (Nat × Int) → MMRoot
  | [], best, col, ev, m, ps =>
    ⟨(match col with | some c => (c : Int) | none => -1), best, ev, m, ps⟩
  | c :: rest, best, col, ev, m, ps =>
    if g.is_valid b c then
      let r := f (g.get_new_board b c pid)
      if r.value > best then
        mmRootLoop g pid f b rest r.value (some c) (ev + r.evals) (max m r.md)
          (ps ++ [(c, r.value)])
      else
        mmRootLoop g pid f b rest best col (ev + r.evals) (max m r.md)
          (ps ++ [(c, r.value)])
    else
      mmRootLoop g pid f b rest best col ev m ps

/-- Minimax decision `MinMaxPlayer.make_move(board)` with explicit fuel. -/
def MinMaxPlayer.make_moveF {β : Type} (g : Game β) (player_id : Nat)
    (depth : Int) (fuel : Nat) (board : β) : MMRoot :=
  mmRootLoop g player_id
    (fun b2 => mmRec g player_id (opponentOf player_id) fuel b2 (depth - 1) false)
    board (List.range (g.width board)) (-BIG) none 0 0 []

/-- Output of the alpha-beta recursive evaluator, with cutoff instrumentation. -/
structure ABOut where
  value : Int
  evals : Nat
  md : Nat
  cut : Bool
  pruned : Bool
  deriving Repr, DecidableEq

/-- Maximizing-ply loop of `AlphaBetaPlayer.make_move.rec`: value and alpha
updates followed by the `alpha >= beta` beta-cutoff break. -/
def abMaxLoop {β : Type} (g : Game β) (pid : Nat) (f : β → Int → ABOut) (b : β)
    (beta : Int) :
    List Nat → Int → Int → Nat → Nat → Bool → Bool → ABOut
  | [], value, _, ev, m, cu, pr => ⟨value, ev, m, cu, pr⟩
  | c :: rest, value, alpha, ev, m, cu, pr =>
    if g.is_valid b c then
      let r := f (g.get_new_board b c pid) alpha
      let v := max value r.value
      let a := max alpha v
      if beta ≤ a then
        ⟨v, ev + r.evals, max m r.md, true,
          (pr || r.pruned) || rest.any (fun c2 => g.is_valid b c2)⟩
      else
        abMaxLoop g pid f b beta rest v a (ev + r.evals) (max m r.md)
          (cu || r.cut) (pr || r.pruned)
    else
      abMaxLoop g pid f b beta rest value alpha ev m cu pr

/-- Minimizing-ply loop of `AlphaBetaPlayer.make_move.rec`: value and beta
updates followed by the `alpha >= beta` alpha-cutoff break. -/
def abMinLoop {β : Type} (g : Game β) (opp : Nat) (f : β → Int → ABOut) (b : β)
    (alpha : Int) :
    List Nat → Int → Int → Nat → Nat → Bool → Bool → ABOut
  | [], value, _, ev, m, cu, pr => ⟨value, ev, m, cu, pr⟩
  | c :: rest, value, beta, ev, m, cu, pr =>
    if g.is_valid b c then
      let r := f (g.get_new_board b c opp) beta
      let v := min value r.value
      let bb := min beta v
      if bb ≤ alpha then
        ⟨v, ev + r.evals, max m r.md, true,
          (pr || r.pruned) || rest.any (fun c2 => g.is_valid b c2)⟩
      else
        abMinLoop g opp f b alpha rest v bb (ev + r.evals) (max m r.md)
          (cu || r.cut) (pr || r.pruned)
    else
      abMinLoop g opp f b alpha rest value beta ev m cu pr

/-- Recursive evaluator `rec(b, depth, alpha, beta, maximizing)` of
`AlphaBetaPlayer.make_move`, with fuel. -/
def abRec {β : Type} (g : Game β) (pid opp : Nat) :
    Nat → β → Int → Int → Int → Bool → ABOut
  | 0, b, _, _, _, _ => ⟨g.evaluate_board pid b, 1, 1, false, false⟩
  | fuel + 1, b, depth, alpha, beta, maximizing =>
    if terminal_or_depth g b depth then
      ⟨g.evaluate_board pid b, 1, 1, false, false⟩
    else if maximizing then
      let L := abMaxLoop g pid
        (fun b2 a => abRec g pid opp fuel b2 (depth - 1) a beta false)
        b beta (List.range (g.width b)) (-BIG) alpha 0 0 false false
      ⟨L.value, L.evals, L.md + 1, L.cut, L.pruned⟩
    else
      let L := abMinLoop g opp
        (fun b2 bb => abRec g pid opp fuel b2 (depth - 1) alpha bb true)
        b alpha (List.range (g.width b)) BIG beta 0 0 false false
      ⟨L.value, L.evals, L.md + 1, L.cut, L.pruned⟩

/-- Result of the root decision loop of `AlphaBetaPlayer.make_move`: the
returned column (initialized to `0`), the root best value, counters, cutoff
flags, and the `(column, value)` pairs examined in order. -/
structure ABRoot where
  col : Int
  value : Int
  evals : Nat
  md : Nat
  cut : Bool
  pruned : Bool
  pairs : List (Nat × Int)
  deriving Repr, DecidableEq

/-- Root loop of `AlphaBetaPlayer.make_move`: ascending columns, update on
strictly greater value, then `alpha = max(alpha, best_val)`; no break. -/
def abRootLoop {β : Type} (g : Game β) (pid : Nat) (f : β → Int → ABOut) (b : β) :
    List Nat → Int → Int → Int → Nat → Nat → Bool → Bool → List (Nat × Int) → ABRoot
  | [], best, col, _, ev, m, cu, pr, ps => ⟨col, best, ev, m, cu, pr, ps⟩
  | c :: rest, best, col, alpha, ev, m, cu, pr, ps =>
    if g.is_valid b c then
      let r := f (g.get_new_board b c pid) alpha
      if r.value > best then
        abRootLoop g pid f b rest r.value (c : Int) (max alpha r.value)
          (ev + r.evals) (max m r.md) (cu || r.cut) (pr || r.pruned)
          (ps ++ [(c, r.value)])
      else
        abRootLoop g pid f b rest best col (max alpha best)
          (ev + r.evals) (max m r.md) (cu || r.cut) (pr || r.pruned)
          (ps ++ [(c, r.value)])
    else
      abRootLoop g pid f b rest best col alpha ev m cu pr ps

/-- Alpha-beta decision `AlphaBetaPlayer.make_move(board)` with explicit fuel:
`best_val, best_col = -10**9, 0`, `alpha, beta = -10**9, 10**9`. -/
def AlphaBetaPlayer.make_moveF {β : Type} (g : Game β) (player_id : Nat)
    (depth : Int) (fuel : Nat) (board : β) : ABRoot :=
  abRootLoop g player_id
    (fun b2 a => abRec g player_id (opponentOf player_id) fuel b2 (depth - 1) a BIG false)
    board (List.range (g.width board)) (-BIG) 0 (-BIG) 0 0 false false []

/-- Modelled from the spec: `board.py` is not under `src/`.  Per the spec
(section 3), a Board is a grid with `width` columns and `height` rows;
`is_valid(column)` holds iff the column has at least one empty cell, and
`get_new_board(column, playerId)` drops a piece into the lowest empty cell of
the column, returning a new board.  We represent each column as the stack of
pieces already dropped into it (bottom first). -/
structure CBoard where
  height : Nat
  cols : List (List Nat)
  deriving Repr, DecidableEq

/-- Modelled from the spec: number of columns of the board. -/
def CBoard.width (b : CBoard) : Nat := b.cols.length

/-- Modelled from the spec: a column is valid iff it exists and has at least
one empty cell. -/
def CBoard.is_valid (b : CBoard) (c : Nat) : Bool :=
  decide (c < b.cols.length) && decide ((b.cols.getD c []).length < b.height)

/-- Modelled from the spec: drop a piece of `p` into the lowest empty cell of
column `c`, returning a new board. -/
def CBoard.get_new_board (b : CBoard) (c : Nat) (p : Nat) : CBoard :=
  ⟨b.height, b.cols.set c ((b.cols.getD c []) ++ [p])⟩

/-- Number of empty cells of the concrete board; used as the exact fuel. -/
def CBoard.emptyCells (b : CBoard) : Nat :=
  (b.cols.map (fun s => b.height - s.length)).sum

/-- Concrete instantiation of the collaborator contract with the board model
and an arbitrary pluggable heuristic. -/
def CGame (winning : CBoard → Int) (evaluate : Nat → CBoard → Int) : Game CBoard :=
  ⟨CBoard.width, CBoard.is_valid, CBoard.get_new_board, winning, evaluate⟩

/-- Minimax decision on the concrete board model, with the exact fuel. -/
def MinMaxPlayer.make_move (winning : CBoard → Int) (evaluate : Nat → CBoard → Int)
    (player_id : Nat) (depth : Int) (board : CBoard) : MMRoot :=
  MinMaxPlayer.make_moveF (CGame winning evaluate) player_id depth
    (board.emptyCells + 1) board

/-- Alpha-beta decision on the concrete board model, with the exact fuel. -/
def AlphaBetaPlayer.make_move (winning : CBoard → Int) (evaluate : Nat → CBoard → Int)
    (player_id : Nat) (depth : Int) (board : CBoard) : ABRoot :=
  AlphaBetaPlayer.make_moveF (CGame winning evaluate) player_id depth
    (board.emptyCells + 1) board

/-- Heuristic used by several concrete checks: the total number of pieces on
the board, a deterministic stand-in for a pluggable evaluation. -/
def pieceCount (b : CBoard) : Int :=
  ((b.cols.map List.length).sum : Nat)

section LoopBasics

variable {β : Type} (g : Game β) (pid opp : Nat) (b : β)

theorem mmRootLoop_all_invalid (f : β → MMOut) :
    ∀ (cols : List Nat) (best : Int) (col : Option Nat) (ev m : Nat)
      (ps : List (Nat × Int)),
      (∀ c ∈ cols, g.is_valid b c = false) →
      mmRootLoop g pid f b cols best col ev m ps =
        ⟨(match col with | some c => (c : Int) | none => -1), best, ev, m, ps⟩
  | [], _, _, _, _, _, _ => rfl
  | c :: rest, best, col, ev, m, ps, h => by
    have hc : g.is_valid b c = false := h c (List.mem_cons_self c rest)
    simp only [mmRootLoop, hc, Bool.false_eq_true, if_false]
    exact mmRootLoop_all_invalid f rest best col ev m ps
      (fun c2 hc2 => h c2 (List.mem_cons_of_mem c hc2))

theorem abRootLoop_all_invalid (f : β → Int → ABOut) :
    ∀ (cols : List Nat) (best col alpha : Int) (ev m : Nat) (cu pr : Bool)
      (ps : List (Nat × Int)),
      (∀ c ∈ cols, g.is_valid b c = false) →
      abRootLoop g pid f b cols best col alpha ev m cu pr ps =
        ⟨col, best, ev, m, cu, pr, ps⟩
  | [], _, _, _, _, _, _, _, _, _ => rfl
  | c :: rest, best, col, alpha, ev, m, cu, pr, ps, h => by
    have hc : g.is_valid b c = false := h c (List.mem_cons_self c rest)
    simp only [abRootLoop, hc, Bool.false_eq_true, if_false]
    exact abRootLoop_all_invalid f rest best col alpha ev m cu pr ps
      (fun c2 hc2 => h c2 (List.mem_cons_of_mem c hc2))

theorem abRootLoop_col_cases (f : β → Int → ABOut) :
    ∀ (cols : List Nat) (best col alpha : Int) (ev m : Nat) (cu pr : Bool)
      (ps : List (Nat × Int)),
      (abRootLoop g pid f b cols best col alpha ev m cu pr ps).col = col ∨
        ∃ c ∈ cols, g.is_valid b c = true ∧
          (abRootLoop g pid f b cols best col alpha ev m cu pr ps).col = (c : Int)
  | [], best, col, alpha, ev, m, cu, pr, ps => Or.inl rfl
  | c :: rest, best, col, alpha, ev, m, cu, pr, ps => by
    by_cases hc : g.is_valid b c = true
    · simp only [abRootLoop, hc, if_true]
      by_cases hv : (f (g.get_new_board b c pid) alpha).value > best
      · simp only [hv, if_true]
        rcases abRootLoop_col_cases f rest
          ((f (g.get_new_board b c pid) alpha).value) (c : Int)
          (max alpha (f (g.get_new_board b c pid) alpha).value)
          (ev + (f (g.get_new_board b c pid) alpha).evals)
          (max m (f (g.get_new_board b c pid) alpha).md)
          (cu || (f (g.get_new_board b c pid) alpha).cut)
          (pr || (f (g.get_new_board b c pid) alpha).pruned)
          (ps ++ [(c, (f (g.get_new_board b c pid) alpha).value)]) with h | h
        · exact Or.inr ⟨c, List.mem_cons_self c rest, hc, h⟩
        · rcases h with ⟨c2, hmem, hval, hcol⟩
          exact Or.inr ⟨c2, List.mem_cons_of_mem c hmem, hval, hcol⟩
      · simp only [hv, if_false]
        rcases abRootLoop_col_cases f rest best col (max alpha best)
          (ev + (f (g.get_new_board b c pid) alpha).evals)
          (max m (f (g.get_new_board b c pid) alpha).md)
          (cu || (f (g.get_new_board b c pid) alpha).cut)
          (pr || (f (g.get_new_board b c pid) alpha).pruned)
          (ps ++ [(c, (f (g.get_new_board b c pid) alpha).value)]) with h | h
        · exact Or.inl h
        · rcases h with ⟨c2, hmem, hval, hcol⟩
          exact Or.inr ⟨c2, List.mem_cons_of_mem c hmem, hval, hcol⟩
    · have hc2 : g.is_valid b c = false := by
        cases h : g.is_valid b c
        · rfl
        · exact absurd h hc
      simp only [abRootLoop, hc2, Bool.false_eq_true, if_false]
      rcases abRootLoop_col_cases f rest best col alpha ev m cu pr ps with h | h
      · exact Or.inl h
      · rcases h with ⟨c2, hmem, hval, hcol⟩
        exact Or.inr ⟨c2, List.mem_cons_of_mem c hmem, hval, hcol⟩

end LoopBasics

/-- Claim C4 (confirmed): at every terminal or depth-exhausted node, both
recursive evaluators return `evaluate_board(playerId, board)` from the root
decision-maker's perspective, for a maximizing and for a minimizing ply
alike. -/
theorem C4_leaf_score_root_perspective {β : Type} (g : Game β) (pid opp : Nat)
    (fuel : Nat) (b : β) (depth : Int) (maximizing : Bool) (alpha beta : Int)
    (h : terminal_or_depth g b depth = true) :
    (mmRec g pid opp fuel b depth maximizing).value = g.evaluate_board pid b ∧
      (abRec g pid opp fuel b depth alpha beta maximizing).value =
        g.evaluate_board pid b := by
  cases fuel with
  | zero => exact ⟨rfl, rfl⟩
  | succ fuel => constructor <;> simp [mmRec, abRec, h]

/-- Witness for C4 at a concrete terminal input: a won 1x1 board (the
heuristic reports a winner), evaluated at a minimizing ply. -/
theorem C4_leaf_score_root_perspective_witness :
    (mmRec (CGame (fun _ => 1) (fun _ b => pieceCount b)) 1 2 5 ⟨1, [[1]]⟩ 3
        false).value = 1 ∧
      (abRec (CGame (fun _ => 1) (fun _ b => pieceCount b)) 1 2 5 ⟨1, [[1]]⟩ 3
          (-BIG) BIG false).value = 1 :=
  C4_leaf_score_root_perspective (CGame (fun _ => 1) (fun _ b => pieceCount b))
    1 2 5 ⟨1, [[1]]⟩ 3 false (-BIG) BIG (by decide)

/-- Claim C6 (confirmed): on a board with no valid column, the minimax root
loop never selects a column and `make_move` returns the sentinel `-1`, while
the alpha-beta `make_move` returns its initial default column `0`. -/
theorem C6_full_board_sentinels {β : Type} (g : Game β) (pid : Nat)
    (depth : Int) (fuel : Nat) (b : β)
    (h : ∀ c ∈ List.range (g.width b), g.is_valid b c = false) :
    (MinMaxPlayer.make_moveF g pid depth fuel b).col = -1 ∧
      (AlphaBetaPlayer.make_moveF g pid depth fuel b).col = 0 := by
  constructor
  · unfold MinMaxPlayer.make_moveF
    rw [mmRootLoop_all_invalid g pid b _ _ _ _ _ _ _ h]
  · unfold AlphaBetaPlayer.make_moveF
    rw [abRootLoop_all_invalid g pid b _ _ _ _ _ _ _ _ _ _ h]

/-- Witness for C6 on a concrete full 2x1 board. -/
theorem C6_full_board_sentinels_witness :
    (MinMaxPlayer.make_move (fun _ => 0) (fun _ b => pieceCount b) 1 3
        ⟨1, [[1], [2]]⟩).col = -1 ∧
      (AlphaBetaPlayer.make_move (fun _ => 0) (fun _ b => pieceCount b) 1 3
          ⟨1, [[1], [2]]⟩).col = 0 :=
  C6_full_board_sentinels (CGame (fun _ => 0) (fun _ b => pieceCount b)) 1 3
    ((CBoard.emptyCells ⟨1, [[1], [2]]⟩) + 1) ⟨1, [[1], [2]]⟩ (by decide)

/-- Claim C10 (confirmed): for any board of width at least 1, the alpha-beta
`make_move` returns either the initial default column `0` or a column that is
valid on the given board, hence always an integer in `[0, width)`. -/
theorem C10_ab_col_in_range {β : Type} (g : Game β) (pid : Nat) (depth : Int)
    (fuel : Nat) (b : β) (hw : 1 ≤ g.width b) :
    ((AlphaBetaPlayer.make_moveF g pid depth fuel b).col = 0 ∨
      ∃ c : Nat, g.is_valid b c = true ∧
        (AlphaBetaPlayer.make_moveF g pid depth fuel b).col = (c : Int)) ∧
      0 ≤ (AlphaBetaPlayer.make_moveF g pid depth fuel b).col ∧
      (AlphaBetaPlayer.make_moveF g pid depth fuel b).col < (g.width b : Int) := by
  unfold AlphaBetaPlayer.make_moveF
  rcases abRootLoop_col_cases g pid b _ (List.range (g.width b)) (-BIG) 0 (-BIG)
    0 0 false false [] with h | h
  · rw [h]
    refine ⟨Or.inl rfl, le_refl 0, ?_⟩
    exact_mod_cast hw
  · rcases h with ⟨c, hmem, hval, hcol⟩
    have hlt : c < g.width b := List.mem_range.mp hmem
    rw [hcol]
    exact ⟨Or.inr ⟨c, hval, rfl⟩, Int.natCast_nonneg c, by exact_mod_cast hlt⟩

/-- Witness for C10 on a concrete 2x1 board with one playable column. -/
theorem C10_ab_col_in_range_witness :
    ((AlphaBetaPlayer.make_moveF (CGame (fun _ => 0) (fun _ b => pieceCount b))
        1 2 3 ⟨1, [[1], []]⟩).col = 0 ∨
      ∃ c : Nat,
        (CGame (fun _ => 0) (fun _ b => pieceCount b)).is_valid ⟨1, [[1], []]⟩ c
            = true ∧
          (AlphaBetaPlayer.make_moveF (CGame (fun _ => 0) (fun _ b => pieceCount b))
              1 2 3 ⟨1, [[1], []]⟩).col = (c : Int)) ∧
      0 ≤ (AlphaBetaPlayer.make_moveF (CGame (fun _ => 0) (fun _ b => pieceCount b))
          1 2 3 ⟨1, [[1], []]⟩).col ∧
      (AlphaBetaPlayer.make_moveF (CGame (fun _ => 0) (fun _ b => pieceCount b))
          1 2 3 ⟨1, [[1], []]⟩).col <
        ((CGame (fun _ => 0) (fun _ b => pieceCount b)).width ⟨1, [[1], []]⟩ : Int) :=
  C10_ab_col_in_range (CGame (fun _ => 0) (fun _ b => pieceCount b)) 1 2 3
    ⟨1, [[1], []]⟩ (by decide)

section DepthBounds

variable {β : Type} (g : Game β) (pid opp : Nat) (b : β)

theorem mmMaxLoop_md_le (f : β → MMOut) (K : Nat) (cols : List Nat)
    (hf : ∀ c ∈ cols, g.is_valid b c = true →
      (f (g.get_new_board b c pid)).md ≤ K) :
    ∀ (best : Int) (ev m : Nat), m ≤ K →
      (mmMaxLoop g pid f b cols best ev m).md ≤ K := by
  induction cols with
  | nil => intro best ev m hm; simpa [mmMaxLoop] using hm
  | cons c rest ih =>
    intro best ev m hm
    simp only [mmMaxLoop]
    by_cases hc : g.is_valid b c = true
    · rw [if_pos hc]
      have hr := hf c (List.mem_cons_self c rest) hc
      exact ih (fun c2 h2 hv => hf c2 (List.mem_cons_of_mem c h2) hv) _ _ _
        (by omega)
    · rw [if_neg hc]
      exact ih (fun c2 h2 hv => hf c2 (List.mem_cons_of_mem c h2) hv) _ _ _ hm

theorem mmMinLoop_md_le (f : β → MMOut) (K : Nat) (cols : List Nat)
    (hf : ∀ c ∈ cols, g.is_valid b c = true →
      (f (g.get_new_board b c opp)).md ≤ K) :
    ∀ (best : Int) (ev m : Nat), m ≤ K →
      (mmMinLoop g opp f b cols best ev m).md ≤ K := by
  induction cols with
  | nil => intro best ev m hm; simpa [mmMinLoop] using hm
  | cons c rest ih =>
    intro best ev m hm
    simp only [mmMinLoop]
    by_cases hc : g.is_valid b c = true
    · rw [if_pos hc]
      have hr := hf c (List.mem_cons_self c rest) hc
      exact ih (fun c2 h2 hv => hf c2 (List.mem_cons_of_mem c h2) hv) _ _ _
        (by omega)
    · rw [if_neg hc]
      exact ih (fun c2 h2 hv => hf c2 (List.mem_cons_of_mem c h2) hv) _ _ _ hm

theorem abMaxLoop_md_le (f : β → Int → ABOut) (beta : Int) (K : Nat)
    (cols : List Nat)
    (hf : ∀ c ∈ cols, g.is_valid b c = true → ∀ a : Int,
      (f (g.get_new_board b c pid) a).md ≤ K) :
    ∀ (value alpha : Int) (ev m : Nat) (cu pr : Bool), m ≤ K →
      (abMaxLoop g pid f b beta cols value alpha ev m cu pr).md ≤ K := by
  induction cols with
  | nil => intro value alpha ev m cu pr hm; simpa [abMaxLoop] using hm
  | cons c rest ih =>
    intro value alpha ev m cu pr hm
    simp only [abMaxLoop]
    by_cases hc : g.is_valid b c = true
    · rw [if_pos hc]
      have hr := hf c (List.mem_cons_self c rest) hc alpha
      by_cases hcut : beta ≤ max alpha (max value (f (g.get_new_board b c pid) alpha).value)
      · rw [if_pos hcut]
        simp only []
        omega
      · rw [if_neg hcut]
        exact ih (fun c2 h2 hv => hf c2 (List.mem_cons_of_mem c h2) hv) _ _ _ _ _ _
          (by omega)
    · rw [if_neg hc]
      exact ih (fun c2 h2 hv => hf c2 (List.mem_cons_of_mem c h2) hv) _ _ _ _ _ _ hm

theorem abMinLoop_md_le (f : β → Int → ABOut) (alpha : Int) (K : Nat)
    (cols : List Nat)
    (hf : ∀ c ∈ cols, g.is_valid b c = true → ∀ bb : Int,
      (f (g.get_new_board b c opp) bb).md ≤ K) :
    ∀ (value beta : Int) (ev m : Nat) (cu pr : Bool), m ≤ K →
      (abMinLoop g opp f b alpha cols value beta ev m cu pr).md ≤ K := by
  induction cols with
  | nil => intro value beta ev m cu pr hm; simpa [abMinLoop] using hm
  | cons c rest ih =>
    intro value beta ev m cu pr hm
    simp only [abMinLoop]
    by_cases hc : g.is_valid b c = true
    · rw [if_pos hc]
      have hr := hf c (List.mem_cons_self c rest) hc beta
      by_cases hcut : min beta (min value (f (g.get_new_board b c opp) beta).value) ≤ alpha
      · rw [if_pos hcut]
        simp only []
        omega
      · rw [if_neg hcut]
        exact ih (fun c2 h2 hv => hf c2 (List.mem_cons_of_mem c h2) hv) _ _ _ _ _ _
          (by omega)
    · rw [if_neg hc]
      exact ih (fun c2 h2 hv => hf c2 (List.mem_cons_of_mem c h2) hv) _ _ _ _ _ _ hm

theorem not_terminal_depth_ne_zero {depth : Int}
    (ht : ¬ terminal_or_depth g b depth = true) : depth ≠ 0 := by
  intro h0
  apply ht
  subst h0
  simp [terminal_or_depth]

theorem mmRec_md_le :
    ∀ (fuel : Nat) (b : β) (depth : Int) (maximizing : Bool), 0 ≤ depth →
      (mmRec g pid opp fuel b depth maximizing).md ≤ depth.toNat + 1 := by
  intro fuel
  induction fuel with
  | zero => intro b depth maxim hd; simp [mmRec]
  | succ fuel ih =>
    intro b depth maxim hd
    by_cases ht : terminal_or_depth g b depth = true
    · simp [mmRec, ht]
    · have hdz : depth ≠ 0 := not_terminal_depth_ne_zero g b ht
      have hd1 : (0 : Int) ≤ depth - 1 := by omega
      have hk : (depth - 1).toNat + 1 = depth.toNat := by omega
      have hmax := mmMaxLoop_md_le g pid b
        (fun b2 => mmRec g pid opp fuel b2 (depth - 1) false) depth.toNat
        (List.range (g.width b))
        (fun c _ _ => by rw [← hk]; exact ih _ (depth - 1) false hd1)
        (-BIG) 0 0 (Nat.zero_le _)
      have hmin := mmMinLoop_md_le g opp b
        (fun b2 => mmRec g pid opp fuel b2 (depth - 1) true) depth.toNat
        (List.range (g.width b))
        (fun c _ _ => by rw [← hk]; exact ih _ (depth - 1) true hd1)
        BIG 0 0 (Nat.zero_le _)
      cases maxim <;> simp [mmRec, if_neg ht] <;> omega

theorem abRec_md_le :
    ∀ (fuel : Nat) (b : β) (depth : Int) (alpha beta : Int) (maximizing : Bool),
      0 ≤ depth →
      (abRec g pid opp fuel b depth alpha beta maximizing).md ≤ depth.toNat + 1 := by
  intro fuel
  induction fuel with
  | zero => intro b depth alpha beta maxim hd; simp [abRec]
  | succ fuel ih =>
    intro b depth alpha beta maxim hd
    by_cases ht : terminal_or_depth g b depth = true
    · simp [abRec, ht]
    · have hdz : depth ≠ 0 := not_terminal_depth_ne_zero g b ht
      have hd1 : (0 : Int) ≤ depth - 1 := by omega
      have hk : (depth - 1).toNat + 1 = depth.toNat := by omega
      have hmax := abMaxLoop_md_le g pid b
        (fun b2 a => abRec g pid opp fuel b2 (depth - 1) a beta false) beta
        depth.toNat (List.range (g.width b))
        (fun c _ _ a => by rw [← hk]; exact ih _ (depth - 1) a beta false hd1)
        (-BIG) alpha 0 0 false false (Nat.zero_le _)
      have hmin := abMinLoop_md_le g opp b
        (fun b2 bb => abRec g pid opp fuel b2 (depth - 1) alpha bb true) alpha
        depth.toNat (List.range (g.width b))
        (fun c _ _ bb => by rw [← hk]; exact ih _ (depth - 1) alpha bb true hd1)
        BIG beta 0 0 false false (Nat.zero_le _)
      cases maxim <;> simp [abRec, if_neg ht] <;> omega

theorem mmRootLoop_md_le (f : β → MMOut) (K : Nat) (cols : List Nat)
    (hf : ∀ c ∈ cols, g.is_valid b c = true →
      (f (g.get_new_board b c pid)).md ≤ K) :
    ∀ (best : Int) (col : Option Nat) (ev m : Nat) (ps : List (Nat × Int)),
      m ≤ K → (mmRootLoop g pid f b cols best col ev m ps).md ≤ K := by
  induction cols with
  | nil => intro best col ev m ps hm; simpa [mmRootLoop] using hm
  | cons c rest ih =>
    intro best col ev m ps hm
    simp only [mmRootLoop]
    by_cases hc : g.is_valid b c = true
    · rw [if_pos hc]
      have hr := hf c (List.mem_cons_self c rest) hc
      by_cases hv : (f (g.get_new_board b c pid)).value > best
      · rw [if_pos hv]
        exact ih (fun c2 h2 h3 => hf c2 (List.mem_cons_of_mem c h2) h3) _ _ _ _ _
          (by omega)
      · rw [if_neg hv]
        exact ih (fun c2 h2 h3 => hf c2 (List.mem_cons_of_mem c h2) h3) _ _ _ _ _
          (by omega)
    · rw [if_neg hc]
      exact ih (fun c2 h2 h3 => hf c2 (List.mem_cons_of_mem c h2) h3) _ _ _ _ _ hm

theorem abRootLoop_md_le (f : β → Int → ABOut) (K : Nat) (cols : List Nat)
    (hf : ∀ c ∈ cols, g.is_valid b c = true → ∀ a : Int,
      (f (g.get_new_board b c pid) a).md ≤ K) :
    ∀ (best col alpha : Int) (ev m : Nat) (cu pr : Bool) (ps : List (Nat × Int)),
      m ≤ K → (abRootLoop g pid f b cols best col alpha ev m cu pr ps).md ≤ K := by
  induction cols with
  | nil => intro best col alpha ev m cu pr ps hm; simpa [abRootLoop] using hm
  | cons c rest ih =>
    intro best col alpha ev m cu pr ps hm
    simp only [abRootLoop]
    by_cases hc : g.is_valid b c = true
    · rw [if_pos hc]
      have hr := hf c (List.mem_cons_self c rest) hc alpha
      by_cases hv : (f (g.get_new_board b c pid) alpha).value > best
      · rw [if_pos hv]
        exact ih (fun c2 h2 h3 => hf c2 (List.mem_cons_of_mem c h2) h3) _ _ _ _ _ _ _ _
          (by omega)
      · rw [if_neg hv]
        exact ih (fun c2 h2 h3 => hf c2 (List.mem_cons_of_mem c h2) h3) _ _ _ _ _ _ _ _
          (by omega)
    · rw [if_neg hc]
      exact ih (fun c2 h2 h3 => hf c2 (List.mem_cons_of_mem c h2) h3) _ _ _ _ _ _ _ _ hm

end DepthBounds

/-- Claim C8, amended (corrected): for every configured search depth of at
least 1, every chain of nested `rec` calls spawned from either root loop has
length at most the configured depth.  (At configured depth 0 the bound fails:
see the counterexample, a consequence of the `depth == 0` test being skipped
when the root passes `depth - 1 = -1`.) -/
theorem C8_amended_recursion_depth_bound {β : Type} (g : Game β) (pid : Nat)
    (depth : Int) (fuel : Nat) (b : β) (hd : 1 ≤ depth) :
    (MinMaxPlayer.make_moveF g pid depth fuel b).md ≤ depth.toNat ∧
      (AlphaBetaPlayer.make_moveF g pid depth fuel b).md ≤ depth.toNat := by
  have hd1 : (0 : Int) ≤ depth - 1 := by omega
  have hk : (depth - 1).toNat + 1 = depth.toNat := by omega
  constructor
  · unfold MinMaxPlayer.make_moveF
    exact mmRootLoop_md_le g pid b _ depth.toNat (List.range (g.width b))
      (fun c _ _ => by
        rw [← hk]
        exact mmRec_md_le g pid (opponentOf pid) fuel _ (depth - 1) false hd1)
      (-BIG) none 0 0 [] (Nat.zero_le _)
  · unfold AlphaBetaPlayer.make_moveF
    exact abRootLoop_md_le g pid b _ depth.toNat (List.range (g.width b))
      (fun c _ _ a => by
        rw [← hk]
        exact abRec_md_le g pid (opponentOf pid) fuel _ (depth - 1) a BIG false hd1)
      (-BIG) 0 (-BIG) 0 0 false false [] (Nat.zero_le _)

/-- Witness for the amended C8 at configured depth 2 on an empty 2x1 board:
the nested call chains have length exactly 2 = configured depth. -/
theorem C8_amended_recursion_depth_bound_witness :
    (1 : Int) ≤ 2 ∧
      (MinMaxPlayer.make_move (fun _ => 0) (fun _ _ => 0) 1 2
          ⟨1, [[], []]⟩).md ≤ (2 : Int).toNat ∧
      (AlphaBetaPlayer.make_move (fun _ => 0) (fun _ _ => 0) 1 2
          ⟨1, [[], []]⟩).md ≤ (2 : Int).toNat :=
  ⟨by decide,
    C8_amended_recursion_depth_bound (CGame (fun _ => 0) (fun _ _ => 0)) 1 2
      ((CBoard.emptyCells ⟨1, [[], []]⟩) + 1) ⟨1, [[], []]⟩ (by decide)⟩

/-- Counterexample to C8 as stated: with configured depth 0 on the empty
1-column, 2-row board (no winner, any heuristic), the chain of nested `rec`
calls spawned from the root loop has length 2, exceeding the configured
depth 0 — the same `depth == 0` off-by-one that code-bug claim C3 records. -/
theorem C8_counterexample_depth_zero :
    (MinMaxPlayer.make_move (fun _ => 0) (fun _ _ => 0) 1 0 ⟨2, [[]]⟩).md = 2 ∧
      (AlphaBetaPlayer.make_move (fun _ => 0) (fun _ _ => 0) 1 0 ⟨2, [[]]⟩).md = 2 ∧
      ¬ ((2 : Nat) ≤ (0 : Int).toNat) := by
  exact ⟨by decide, by decide, by decide⟩

section GuardedMoves

variable {β : Type} (g : Game β) (p2 : β → Nat → Nat → β) (pid opp : Nat) (b : β)

theorem mmMaxLoop_play_congr (f1 f2 : β → MMOut) (cols : List Nat)
    (hp : ∀ c ∈ cols, g.is_valid b c = true →
      p2 b c pid = g.get_new_board b c pid)
    (hf : ∀ b2 : β, f1 b2 = f2 b2) :
    ∀ (best : Int) (ev m : Nat),
      mmMaxLoop { g with get_new_board := p2 } pid f1 b cols best ev m =
        mmMaxLoop g pid f2 b cols best ev m := by
  induction cols with
  | nil => intro best ev m; rfl
  | cons c rest ih =>
    intro best ev m
    simp only [mmMaxLoop]
    by_cases hc : g.is_valid b c = true
    · rw [if_pos hc, if_pos hc]
      rw [hp c (List.mem_cons_self c rest) hc, hf (g.get_new_board b c pid)]
      exact ih (fun c2 h2 h3 => hp c2 (List.mem_cons_of_mem c h2) h3) _ _ _
    · rw [if_neg hc, if_neg hc]
      exact ih (fun c2 h2 h3 => hp c2 (List.mem_cons_of_mem c h2) h3) _ _ _

theorem mmMinLoop_play_congr (f1 f2 : β → MMOut) (cols : List Nat)
    (hp : ∀ c ∈ cols, g.is_valid b c = true →
      p2 b c opp = g.get_new_board b c opp)
    (hf : ∀ b2 : β, f1 b2 = f2 b2) :
    ∀ (best : Int) (ev m : Nat),
      mmMinLoop { g with get_new_board := p2 } opp f1 b cols best ev m =
        mmMinLoop g opp f2 b cols best ev m := by
  induction cols with
  | nil => intro best ev m; rfl
  | cons c rest ih =>
    intro best ev m
    simp only [mmMinLoop]
    by_cases hc : g.is_valid b c = true
    · rw [if_pos hc, if_pos hc]
      rw [hp c (List.mem_cons_self c rest) hc, hf (g.get_new_board b c opp)]
      exact ih (fun c2 h2 h3 => hp c2 (List.mem_cons_of_mem c h2) h3) _ _ _
    · rw [if_neg hc, if_neg hc]
      exact ih (fun c2 h2 h3 => hp c2 (List.mem_cons_of_mem c h2) h3) _ _ _

theorem mmRec_play_congr
    (hp : ∀ (b2 : β) (c q : Nat), g.is_valid b2 c = true →
      p2 b2 c q = g.get_new_board b2 c q) :
    ∀ (fuel : Nat) (b : β) (depth : Int) (maximizing : Bool),
      mmRec { g with get_new_board := p2 } pid opp fuel b depth maximizing =
        mmRec g pid opp fuel b depth maximizing := by
  intro fuel
  induction fuel with
  | zero => intro b depth maxim; rfl
  | succ fuel ih =>
    intro b depth maxim
    have hterm : terminal_or_depth { g with get_new_board := p2 } b depth =
        terminal_or_depth g b depth := rfl
    by_cases ht : terminal_or_depth g b depth = true
    · simp [mmRec, ht, hterm]
    · have h1 := mmMaxLoop_play_congr g p2 pid b
        (fun b2 => mmRec { g with get_new_board := p2 } pid opp fuel b2 (depth - 1) false)
        (fun b2 => mmRec g pid opp fuel b2 (depth - 1) false)
        (List.range (g.width b)) (fun c _ h3 => hp b c pid h3)
        (fun b2 => ih b2 (depth - 1) false) (-BIG) 0 0
      have h2 := mmMinLoop_play_congr g p2 opp b
        (fun b2 => mmRec { g with get_new_board := p2 } pid opp fuel b2 (depth - 1) true)
        (fun b2 => mmRec g pid opp fuel b2 (depth - 1) true)
        (List.range (g.width b)) (fun c _ h3 => hp b c opp h3)
        (fun b2 => ih b2 (depth - 1) true) BIG 0 0
      cases maxim <;> simp [mmRec, ht, hterm, h1, h2]

theorem abMaxLoop_play_congr (f1 f2 : β → Int → ABOut) (beta : Int)
    (cols : List Nat)
    (hp : ∀ c ∈ cols, g.is_valid b c = true →
      p2 b c pid = g.get_new_board b c pid)
    (hf : ∀ (b2 : β) (a : Int), f1 b2 a = f2 b2 a) :
    ∀ (value alpha : Int) (ev m : Nat) (cu pr : Bool),
      abMaxLoop { g with get_new_board := p2 } pid f1 b beta cols value alpha ev m cu pr =
        abMaxLoop g pid f2 b beta cols value alpha ev m cu pr := by
  induction cols with
  | nil => intro value alpha ev m cu pr; rfl
  | cons c rest ih =>
    intro value alpha ev m cu pr
    simp only [abMaxLoop]
    by_cases hc : g.is_valid b c = true
    · rw [if_pos hc, if_pos hc]
      rw [hp c (List.mem_cons_self c rest) hc, hf (g.get_new_board b c pid) alpha]
      by_cases hcut : beta ≤ max alpha (max value (f2 (g.get_new_board b c pid) alpha).value)
      · rw [if_pos hcut, if_pos hcut]
      · rw [if_neg hcut, if_neg hcut]
        exact ih (fun c2 h2 h3 => hp c2 (List.mem_cons_of_mem c h2) h3) _ _ _ _ _ _
    · rw [if_neg hc, if_neg hc]
      exact ih (fun c2 h2 h3 => hp c2 (List.mem_cons_of_mem c h2) h3) _ _ _ _ _ _

theorem abMinLoop_play_congr (f1 f2 : β → Int → ABOut) (alpha : Int)
    (cols : List Nat)
    (hp : ∀ c ∈ cols, g.is_valid b c = true →
      p2 b c opp = g.get_new_board b c opp)
    (hf : ∀ (b2 : β) (bb : Int), f1 b2 bb = f2 b2 bb) :
    ∀ (value beta : Int) (ev m : Nat) (cu pr : Bool),
      abMinLoop { g with get_new_board := p2 } opp f1 b alpha cols value beta ev m cu pr =
        abMinLoop g opp f2 b alpha cols value beta ev m cu pr := by
  induction cols with
  | nil => intro value beta ev m cu pr; rfl
  | cons c rest ih =>
    intro value beta ev m cu pr
    simp only [abMinLoop]
    by_cases hc : g.is_valid b c = true
    · rw [if_pos hc, if_pos hc]
      rw [hp c (List.mem_cons_self c rest) hc, hf (g.get_new_board b c opp) beta]
      by_cases hcut : min beta (min value (f2 (g.get_new_board b c opp) beta).value) ≤ alpha
      · rw [if_pos hcut, if_pos hcut]
      · rw [if_neg hcut, if_neg hcut]
        exact ih (fun c2 h2 h3 => hp c2 (List.mem_cons_of_mem c h2) h3) _ _ _ _ _ _
    · rw [if_neg hc, if_neg hc]
      exact ih (fun c2 h2 h3 => hp c2 (List.mem_cons_of_mem c h2) h3) _ _ _ _ _ _

theorem abRec_play_congr
    (hp : ∀ (b2 : β) (c q : Nat), g.is_valid b2 c = true →
      p2 b2 c q = g.get_new_board b2 c q) :
    ∀ (fuel : Nat) (b : β) (depth : Int) (alpha beta : Int) (maximizing : Bool),
      abRec { g with get_new_board := p2 } pid opp fuel b depth alpha beta maximizing =
        abRec g pid opp fuel b depth alpha beta maximizing := by
  intro fuel
  induction fuel with
  | zero => intro b depth alpha beta maxim; rfl
  | succ fuel ih =>
    intro b depth alpha beta maxim
    have hterm : terminal_or_depth { g with get_new_board := p2 } b depth =
        terminal_or_depth g b depth := rfl
    by_cases ht : terminal_or_depth g b depth = true
    · simp [abRec, ht, hterm]
    · have h1 := abMaxLoop_play_congr g p2 pid b
        (fun b2 a => abRec { g with get_new_board := p2 } pid opp fuel b2 (depth - 1) a beta false)
        (fun b2 a => abRec g pid opp fuel b2 (depth - 1) a beta false) beta
        (List.range (g.width b)) (fun c _ h3 => hp b c pid h3)
        (fun b2 a => ih b2 (depth - 1) a beta false) (-BIG) alpha 0 0 false false
      have h2 := abMinLoop_play_congr g p2 opp b
        (fun b2 bb => abRec { g with get_new_board := p2 } pid opp fuel b2 (depth - 1) alpha bb true)
        (fun b2 bb => abRec g pid opp fuel b2 (depth - 1) alpha bb true) alpha
        (List.range (g.width b)) (fun c _ h3 => hp b c opp h3)
        (fun b2 bb => ih b2 (depth - 1) alpha bb true) BIG beta 0 0 false false
      cases maxim <;> simp [abRec, ht, hterm, h1, h2]

theorem mmRootLoop_play_congr (f1 f2 : β → MMOut) (cols : List Nat)
    (hp : ∀ c ∈ cols, g.is_valid b c = true →
      p2 b c pid = g.get_new_board b c pid)
    (hf : ∀ b2 : β, f1 b2 = f2 b2) :
    ∀ (best : Int) (col : Option Nat) (ev m : Nat) (ps : List (Nat × Int)),
      mmRootLoop { g with get_new_board := p2 } pid f1 b cols best col ev m ps =
        mmRootLoop g pid f2 b cols best col ev m ps := by
  induction cols with
  | nil => intro best col ev m ps; rfl
  | cons c rest ih =>
    intro best col ev m ps
    simp only [mmRootLoop]
    by_cases hc : g.is_valid b c = true
    · rw [if_pos hc, if_pos hc]
      rw [hp c (List.mem_cons_self c rest) hc, hf (g.get_new_board b c pid)]
      by_cases hv : (f2 (g.get_new_board b c pid)).value > best
      · rw [if_pos hv, if_pos hv]
        exact ih (fun c2 h2 h3 => hp c2 (List.mem_cons_of_mem c h2) h3) _ _ _ _ _
      · rw [if_neg hv, if_neg hv]
        exact ih (fun c2 h2 h3 => hp c2 (List.mem_cons_of_mem c h2) h3) _ _ _ _ _
    · rw [if_neg hc, if_neg hc]
      exact ih (fun c2 h2 h3 => hp c2 (List.mem_cons_of_mem c h2) h3) _ _ _ _ _

theorem abRootLoop_play_congr (f1 f2 : β → Int → ABOut) (cols : List Nat)
    (hp : ∀ c ∈ cols, g.is_valid b c = true →
      p2 b c pid = g.get_new_board b c pid)
    (hf : ∀ (b2 : β) (a : Int), f1 b2 a = f2 b2 a) :
    ∀ (best col alpha : Int) (ev m : Nat) (cu pr : Bool) (ps : List (Nat × Int)),
      abRootLoop { g with get_new_board := p2 } pid f1 b cols best col alpha ev m cu pr ps =
        abRootLoop g pid f2 b cols best col alpha ev m cu pr ps := by
  induction cols with
  | nil => intro best col alpha ev m cu pr ps; rfl
  | cons c rest ih =>
    intro best col alpha ev m cu pr ps
    simp only [abRootLoop]
    by_cases hc : g.is_valid b c = true
    · rw [if_pos hc, if_pos hc]
      rw [hp c (List.mem_cons_self c rest) hc, hf (g.get_new_board b c pid) alpha]
      by_cases hv : (f2 (g.get_new_board b c pid) alpha).value > best
      · rw [if_pos hv, if_pos hv]
        exact ih (fun c2 h2 h3 => hp c2 (List.mem_cons_of_mem c h2) h3) _ _ _ _ _ _ _ _
      · rw [if_neg hv, if_neg hv]
        exact ih (fun c2 h2 h3 => hp c2 (List.mem_cons_of_mem c h2) h3) _ _ _ _ _ _ _ _
    · rw [if_neg hc, if_neg hc]
      exact ih (fun c2 h2 h3 => hp c2 (List.mem_cons_of_mem c h2) h3) _ _ _ _ _ _ _ _

end GuardedMoves

/-- Claim C9 (confirmed): every move application `get_new_board(c, playerId)`
in both searches — in the root loops and inside every maximizing and
minimizing ply — is guarded by an `is_valid(c)` check on the same column of
the same board.  Formalized observationally: replacing `get_new_board` by any
function that agrees with it on valid columns (and may do anything on invalid
ones) leaves both decisions — columns, values, counters and flags — unchanged,
so the searches never depend on a move applied to an unvalidated column. -/
theorem C9_moves_guarded_by_validity {β : Type} (g : Game β)
    (p2 : β → Nat → Nat → β)
    (hp : ∀ (b2 : β) (c q : Nat), g.is_valid b2 c = true →
      p2 b2 c q = g.get_new_board b2 c q)
    (pid : Nat) (depth : Int) (fuel : Nat) (b : β) :
    MinMaxPlayer.make_moveF { g with get_new_board := p2 } pid depth fuel b =
        MinMaxPlayer.make_moveF g pid depth fuel b ∧
      AlphaBetaPlayer.make_moveF { g with get_new_board := p2 } pid depth fuel b =
        AlphaBetaPlayer.make_moveF g pid depth fuel b := by
  constructor
  · unfold MinMaxPlayer.make_moveF
    exact mmRootLoop_play_congr g p2 pid b _ _ (List.range (g.width b))
      (fun c _ h3 => hp b c pid h3)
      (fun b2 => mmRec_play_congr g p2 pid (opponentOf pid) hp fuel b2 (depth - 1) false)
      (-BIG) none 0 0 []
  · unfold AlphaBetaPlayer.make_moveF
    exact abRootLoop_play_congr g p2 pid b _ _ (List.range (g.width b))
      (fun c _ h3 => hp b c pid h3)
      (fun b2 a => abRec_play_congr g p2 pid (opponentOf pid) hp fuel b2 (depth - 1) a BIG false)
      (-BIG) 0 (-BIG) 0 0 false false []

/-- Witness for C9: on the concrete board model, a move function that returns
a junk empty board whenever the column is invalid produces identical
decisions at a concrete mid-game position. -/
theorem C9_moves_guarded_by_validity_witness :
    MinMaxPlayer.make_moveF
        { CGame (fun _ => 0) (fun _ b => pieceCount b) with
          get_new_board := fun b c q =>
            if CBoard.is_valid b c then CBoard.get_new_board b c q else ⟨0, []⟩ }
        1 2 4 ⟨2, [[1], []]⟩ =
      MinMaxPlayer.make_moveF (CGame (fun _ => 0) (fun _ b => pieceCount b))
        1 2 4 ⟨2, [[1], []]⟩ ∧
    AlphaBetaPlayer.make_moveF
        { CGame (fun _ => 0) (fun _ b => pieceCount b) with
          get_new_board := fun b c q =>
            if CBoard.is_valid b c then CBoard.get_new_board b c q else ⟨0, []⟩ }
        1 2 4 ⟨2, [[1], []]⟩ =
      AlphaBetaPlayer.make_moveF (CGame (fun _ => 0) (fun _ b => pieceCount b))
        1 2 4 ⟨2, [[1], []]⟩ :=
  C9_moves_guarded_by_validity (CGame (fun _ => 0) (fun _ b => pieceCount b))
    (fun b c q => if CBoard.is_valid b c then CBoard.get_new_board b c q else ⟨0, []⟩)
    (fun b2 c q h => by
      have hv : CBoard.is_valid b2 c = true := h
      simp [hv, CGame])
    1 2 4 ⟨2, [[1], []]⟩

section LowerBounds

variable {β : Type} (g : Game β) (pid opp : Nat) (b : β)

theorem not_terminal_exists_valid {depth : Int}
    (ht : ¬ terminal_or_depth g b depth = true) :
    ∃ c ∈ List.range (g.width b), g.is_valid b c = true := by
  by_contra hno
  apply ht
  unfold terminal_or_depth
  have : (List.range (g.width b)).any (fun c => g.is_valid b c) = false := by
    rw [List.any_eq_false]
    intro c hc
    intro hv
    exact hno ⟨c, hc, hv⟩
  simp [this]

theorem mmMaxLoop_value_ge_init (f : β → MMOut) :
    ∀ (cols : List Nat) (best : Int) (ev m : Nat),
      best ≤ (mmMaxLoop g pid f b cols best ev m).value := by
  intro cols
  induction cols with
  | nil => intro best ev m; simp [mmMaxLoop]
  | cons c rest ih =>
    intro best ev m
    simp only [mmMaxLoop]
    by_cases hc : g.is_valid b c = true
    · rw [if_pos hc]
      have := ih (max best (f (g.get_new_board b c pid)).value)
        (ev + (f (g.get_new_board b c pid)).evals)
        (max m (f (g.get_new_board b c pid)).md)
      omega
    · rw [if_neg hc]
      exact ih best ev m

theorem mmMaxLoop_value_ge_mem (f : β → MMOut) :
    ∀ (cols : List Nat) (best : Int) (ev m : Nat) (c : Nat), c ∈ cols →
      g.is_valid b c = true →
      (f (g.get_new_board b c pid)).value ≤
        (mmMaxLoop g pid f b cols best ev m).value := by
  intro cols
  induction cols with
  | nil => intro best ev m c hmem; exact absurd hmem (List.not_mem_nil c)
  | cons c0 rest ih =>
    intro best ev m c hmem hval
    simp only [mmMaxLoop]
    rcases List.mem_cons.mp hmem with heq | hmem2
    · subst heq
      rw [if_pos hval]
      have := mmMaxLoop_value_ge_init g pid b f rest
        (max best (f (g.get_new_board b c pid)).value)
        (ev + (f (g.get_new_board b c pid)).evals)
        (max m (f (g.get_new_board b c pid)).md)
      omega
    · by_cases hc0 : g.is_valid b c0 = true
      · rw [if_pos hc0]
        exact ih _ _ _ c hmem2 hval
      · rw [if_neg hc0]
        exact ih _ _ _ c hmem2 hval

theorem mmMinLoop_value_lb (f : β → MMOut) :
    ∀ (cols : List Nat) (best : Int) (ev m : Nat), -BIG < best →
      (∀ c ∈ cols, g.is_valid b c = true →
        -BIG < (f (g.get_new_board b c opp)).value) →
      -BIG < (mmMinLoop g opp f b cols best ev m).value := by
  intro cols
  induction cols with
  | nil => intro best ev m hb hf; simpa [mmMinLoop] using hb
  | cons c rest ih =>
    intro best ev m hb hf
    simp only [mmMinLoop]
    by_cases hc : g.is_valid b c = true
    · rw [if_pos hc]
      have h1 := hf c (List.mem_cons_self c rest) hc
      exact ih _ _ _ (by omega)
        (fun c2 h2 h3 => hf c2 (List.mem_cons_of_mem c h2) h3)
    · rw [if_neg hc]
      exact ih best ev m hb (fun c2 h2 h3 => hf c2 (List.mem_cons_of_mem c h2) h3)

theorem mmRec_value_lb
    (hlb : ∀ b2 : β, -BIG < g.evaluate_board pid b2) :
    ∀ (fuel : Nat) (b : β) (depth : Int) (maximizing : Bool),
      -BIG < (mmRec g pid opp fuel b depth maximizing).value := by
  intro fuel
  induction fuel with
  | zero => intro b depth maxim; simpa [mmRec] using hlb b
  | succ fuel ih =>
    intro b depth maxim
    by_cases ht : terminal_or_depth g b depth = true
    · simpa [mmRec, ht] using hlb b
    · obtain ⟨c, hcm, hcv⟩ := not_terminal_exists_valid g b ht
      have hmax : -BIG <
          (mmMaxLoop g pid (fun b2 => mmRec g pid opp fuel b2 (depth - 1) false)
            b (List.range (g.width b)) (-BIG) 0 0).value := by
        have h1 := mmMaxLoop_value_ge_mem g pid b
          (fun b2 => mmRec g pid opp fuel b2 (depth - 1) false)
          (List.range (g.width b)) (-BIG) 0 0 c hcm hcv
        dsimp only at h1
        have h2 := ih (g.get_new_board b c pid) (depth - 1) false
        omega
      have hmin : -BIG <
          (mmMinLoop g opp (fun b2 => mmRec g pid opp fuel b2 (depth - 1) true)
            b (List.range (g.width b)) BIG 0 0).value := by
        apply mmMinLoop_value_lb
        · have : (0 : Int) < BIG := by decide
          omega
        · intro c2 _ _
          exact ih _ (depth - 1) true
      cases maxim <;> simp [mmRec, ht] <;> omega

theorem mmRootLoop_valid_col (f : β → MMOut) :
    ∀ (cols : List Nat) (best : Int) (col : Option Nat) (ev m : Nat)
      (ps : List (Nat × Int)),
      (∀ c0, col = some c0 → g.is_valid b c0 = true) →
      ((∃ c0, col = some c0) ∨
        (best = -BIG ∧ ∃ c ∈ cols, g.is_valid b c = true)) →
      (∀ c ∈ cols, g.is_valid b c = true →
        -BIG < (f (g.get_new_board b c pid)).value) →
      ∃ c2, g.is_valid b c2 = true ∧
        (mmRootLoop g pid f b cols best col ev m ps).col = (c2 : Int) := by
  intro cols
  induction cols with
  | nil =>
    intro best col ev m ps hcol hok hf
    rcases hok with ⟨c0, rfl⟩ | ⟨_, c, hmem, _⟩
    · exact ⟨c0, hcol c0 rfl, rfl⟩
    · exact absurd hmem (List.not_mem_nil c)
  | cons c rest ih =>
    intro best col ev m ps hcol hok hf
    simp only [mmRootLoop]
    by_cases hc : g.is_valid b c = true
    · rw [if_pos hc]
      by_cases hv : (f (g.get_new_board b c pid)).value > best
      · rw [if_pos hv]
        exact ih _ (some c) _ _ _
          (fun c0 h0 => by rw [← Option.some.inj h0]; exact hc)
          (Or.inl ⟨c, rfl⟩)
          (fun c2 h2 h3 => hf c2 (List.mem_cons_of_mem c h2) h3)
      · rw [if_neg hv]
        rcases hok with ⟨c0, hc0⟩ | ⟨hbb, hex⟩
        · exact ih _ col _ _ _ hcol (Or.inl ⟨c0, hc0⟩)
            (fun c2 h2 h3 => hf c2 (List.mem_cons_of_mem c h2) h3)
        · exact absurd (by
            have := hf c (List.mem_cons_self c rest) hc
            omega) hv
    · rw [if_neg hc]
      rcases hok with ⟨c0, hc0⟩ | ⟨hbb, c2, hmem, hval⟩
      · exact ih _ col _ _ _ hcol (Or.inl ⟨c0, hc0⟩)
          (fun c3 h3 h4 => hf c3 (List.mem_cons_of_mem c h3) h4)
      · have hc2 : c2 ≠ c := fun h => by rw [h] at hval; exact hc hval
        rcases List.mem_cons.mp hmem with heq | hmem2
        · exact absurd heq hc2
        · exact ih _ col _ _ _ hcol (Or.inr ⟨hbb, c2, hmem2, hval⟩)
            (fun c3 h3 h4 => hf c3 (List.mem_cons_of_mem c h3) h4)

end LowerBounds

/-- Counterexample to C5 as stated: with a heuristic whose evaluations equal
the `-10**9` sentinel, on the empty 1x1 board (column 0 legal, depth 1) the
root child's value never exceeds the initial `best_val = -10**9`, so no column
is ever selected and `make_move` returns `-1` even though a legal column
exists. -/
theorem C5_counterexample_sentinel_heuristic :
    (MinMaxPlayer.make_move (fun _ => 0) (fun _ _ => -BIG) 1 1 ⟨1, [[]]⟩).col = -1 ∧
      CBoard.is_valid ⟨1, [[]]⟩ 0 = true := by
  exact ⟨by decide, by decide⟩

/-- Claim C5, amended (corrected): `MinMaxPlayer.make_move` returns `-1` when
no column is legal; and provided every heuristic evaluation exceeds the
`-10**9` sentinel used as the initial best value, whenever at least one
column is legal it returns a legal column and never the sentinel. -/
theorem C5_amended_minmax_sentinel {β : Type} (g : Game β) (pid : Nat)
    (depth : Int) (fuel : Nat) (board : β) :
    ((∀ c ∈ List.range (g.width board), g.is_valid board c = false) →
      (MinMaxPlayer.make_moveF g pid depth fuel board).col = -1) ∧
    ((∀ b2 : β, -BIG < g.evaluate_board pid b2) →
      (∃ c ∈ List.range (g.width board), g.is_valid board c = true) →
      ∃ c2, g.is_valid board c2 = true ∧
        (MinMaxPlayer.make_moveF g pid depth fuel board).col = (c2 : Int) ∧
        (MinMaxPlayer.make_moveF g pid depth fuel board).col ≠ -1) := by
  constructor
  · intro hall
    unfold MinMaxPlayer.make_moveF
    rw [mmRootLoop_all_invalid g pid board _ _ _ _ _ _ _ hall]
  · intro hlb hex
    unfold MinMaxPlayer.make_moveF
    obtain ⟨c2, hval, hcol⟩ := mmRootLoop_valid_col g pid board
      (fun b2 => mmRec g pid (opponentOf pid) fuel b2 (depth - 1) false)
      (List.range (g.width board)) (-BIG) none 0 0 []
      (fun c0 h0 => nomatch h0) (Or.inr ⟨rfl, hex⟩)
      (fun c _ _ => by exact mmRec_value_lb g pid (opponentOf pid) hlb fuel _ (depth - 1) false)
    refine ⟨c2, hval, hcol, ?_⟩
    rw [hcol]
    have := Int.natCast_nonneg c2
    omega

/-- Witness for the amended C5 on a concrete 2x1 board with one playable
column and the zero heuristic (whose values exceed `-10**9`). -/
theorem C5_amended_minmax_sentinel_witness :
    ∃ c2, (CGame (fun _ => 0) (fun _ _ => 0)).is_valid ⟨1, [[1], []]⟩ c2 = true ∧
      (MinMaxPlayer.make_moveF (CGame (fun _ => 0) (fun _ _ => 0)) 1 2 3
          ⟨1, [[1], []]⟩).col = (c2 : Int) ∧
      (MinMaxPlayer.make_moveF (CGame (fun _ => 0) (fun _ _ => 0)) 1 2 3
          ⟨1, [[1], []]⟩).col ≠ -1 :=
  (C5_amended_minmax_sentinel (CGame (fun _ => 0) (fun _ _ => 0)) 1 2 3
    ⟨1, [[1], []]⟩).2 (fun _ => by show (-BIG : Int) < 0; decide) (by decide)

section FirstArgmax

variable {β : Type} (g : Game β) (pid : Nat) (b : β)

theorem mmRootLoop_argmax (f : β → MMOut) :
    ∀ (cols : List Nat) (best : Int) (col : Option Nat) (ev m : Nat)
      (ps : List (Nat × Int)),
      -BIG ≤ best →
      ((col = none ∧ best = -BIG ∧ ∀ q ∈ ps, q.2 ≤ -BIG) ∨
        (∃ (c0 : Nat) (l1 l2 : List (Nat × Int)), col = some c0 ∧ ps = l1 ++ (c0, best) :: l2 ∧
          (∀ q ∈ l1, q.2 < best) ∧ (∀ q ∈ ps, q.2 ≤ best))) →
      (((mmRootLoop g pid f b cols best col ev m ps).col = -1 ∧
          ∀ q ∈ (mmRootLoop g pid f b cols best col ev m ps).pairs, q.2 ≤ -BIG) ∨
        (∃ (c0 : Nat) (l1 l2 : List (Nat × Int)),
          (mmRootLoop g pid f b cols best col ev m ps).col = (c0 : Int) ∧
          (mmRootLoop g pid f b cols best col ev m ps).pairs =
            l1 ++ (c0, (mmRootLoop g pid f b cols best col ev m ps).value) :: l2 ∧
          (∀ q ∈ l1, q.2 < (mmRootLoop g pid f b cols best col ev m ps).value) ∧
          (∀ q ∈ (mmRootLoop g pid f b cols best col ev m ps).pairs,
            q.2 ≤ (mmRootLoop g pid f b cols best col ev m ps).value))) := by
  intro cols
  induction cols with
  | nil =>
    intro best col ev m ps hge hinv
    rcases hinv with ⟨hnone, hbb, hq⟩ | ⟨c0, l1, l2, hcol, hps, hl1, hall⟩
    · subst hnone
      exact Or.inl ⟨rfl, hq⟩
    · subst hcol
      exact Or.inr ⟨c0, l1, l2, rfl, hps, hl1, hall⟩
  | cons c rest ih =>
    intro best col ev m ps hge hinv
    simp only [mmRootLoop]
    by_cases hc : g.is_valid b c = true
    · rw [if_pos hc]
      by_cases hv : (f (g.get_new_board b c pid)).value > best
      · rw [if_pos hv]
        apply ih
        · omega
        · refine Or.inr ⟨c, ps, [], rfl, rfl, ?_, ?_⟩
          · intro q hq
            rcases hinv with ⟨_, hbb, hqs⟩ | ⟨c0, l1, l2, _, hps, hl1, hall⟩
            · have := hqs q hq
              omega
            · have := hall q hq
              omega
          · intro q hq
            rcases List.mem_append.mp hq with hq1 | hq2
            · rcases hinv with ⟨_, hbb, hqs⟩ | ⟨c0, l1, l2, _, hps, hl1, hall⟩
              · have := hqs q hq1
                omega
              · have := hall q hq1
                omega
            · rcases List.mem_singleton.mp hq2 with rfl
              exact le_refl _
      · rw [if_neg hv]
        apply ih
        · exact hge
        · rcases hinv with ⟨hnone, hbb, hqs⟩ | ⟨c0, l1, l2, hcol, hps, hl1, hall⟩
          · refine Or.inl ⟨hnone, hbb, ?_⟩
            intro q hq
            rcases List.mem_append.mp hq with hq1 | hq2
            · exact hqs q hq1
            · rcases List.mem_singleton.mp hq2 with rfl
              omega
          · refine Or.inr ⟨c0, l1,
              l2 ++ [(c, (f (g.get_new_board b c pid)).value)], hcol, ?_, hl1, ?_⟩
            · rw [hps, List.append_assoc, List.cons_append]
            · intro q hq
              rcases List.mem_append.mp hq with hq1 | hq2
              · exact hall q hq1
              · rcases List.mem_singleton.mp hq2 with rfl
                omega
    · rw [if_neg hc]
      exact ih best col ev m ps hge hinv

theorem abRootLoop_value_ge (f : β → Int → ABOut) :
    ∀ (cols : List Nat) (best col alpha : Int) (ev m : Nat) (cu pr : Bool)
      (ps : List (Nat × Int)),
      best ≤ (abRootLoop g pid f b cols best col alpha ev m cu pr ps).value := by
  intro cols
  induction cols with
  | nil => intro best col alpha ev m cu pr ps; exact le_refl _
  | cons c rest ih =>
    intro best col alpha ev m cu pr ps
    simp only [abRootLoop]
    by_cases hc : g.is_valid b c = true
    · rw [if_pos hc]
      by_cases hv : (f (g.get_new_board b c pid) alpha).value > best
      · rw [if_pos hv]
        have := ih ((f (g.get_new_board b c pid) alpha).value) (c : Int)
          (max alpha (f (g.get_new_board b c pid) alpha).value)
          (ev + (f (g.get_new_board b c pid) alpha).evals)
          (max m (f (g.get_new_board b c pid) alpha).md)
          (cu || (f (g.get_new_board b c pid) alpha).cut)
          (pr || (f (g.get_new_board b c pid) alpha).pruned)
          (ps ++ [(c, (f (g.get_new_board b c pid) alpha).value)])
        omega
      · rw [if_neg hv]
        exact ih _ _ _ _ _ _ _ _
    · rw [if_neg hc]
      exact ih _ _ _ _ _ _ _ _

theorem abRootLoop_argmax (f : β → Int → ABOut) :
    ∀ (cols : List Nat) (best col alpha : Int) (ev m : Nat) (cu pr : Bool)
      (ps : List (Nat × Int)),
      -BIG ≤ best →
      ((best = -BIG ∧ ∀ q ∈ ps, q.2 ≤ -BIG) ∨
        (∃ (c0 : Nat) (l1 l2 : List (Nat × Int)), col = (c0 : Int) ∧ ps = l1 ++ (c0, best) :: l2 ∧
          (∀ q ∈ l1, q.2 < best) ∧ (∀ q ∈ ps, q.2 ≤ best))) →
      (((abRootLoop g pid f b cols best col alpha ev m cu pr ps).value = -BIG ∧
          (abRootLoop g pid f b cols best col alpha ev m cu pr ps).col = col ∧
          ∀ q ∈ (abRootLoop g pid f b cols best col alpha ev m cu pr ps).pairs,
            q.2 ≤ -BIG) ∨
        (∃ (c0 : Nat) (l1 l2 : List (Nat × Int)),
          (abRootLoop g pid f b cols best col alpha ev m cu pr ps).col = (c0 : Int) ∧
          (abRootLoop g pid f b cols best col alpha ev m cu pr ps).pairs =
            l1 ++ (c0, (abRootLoop g pid f b cols best col alpha ev m cu pr ps).value) :: l2 ∧
          (∀ q ∈ l1,
            q.2 < (abRootLoop g pid f b cols best col alpha ev m cu pr ps).value) ∧
          (∀ q ∈ (abRootLoop g pid f b cols best col alpha ev m cu pr ps).pairs,
            q.2 ≤ (abRootLoop g pid f b cols best col alpha ev m cu pr ps).value))) := by
  intro cols
  induction cols with
  | nil =>
    intro best col alpha ev m cu pr ps hge hinv
    rcases hinv with ⟨hbb, hq⟩ | ⟨c0, l1, l2, hcol, hps, hl1, hall⟩
    · exact Or.inl ⟨hbb, rfl, hq⟩
    · subst hcol
      exact Or.inr ⟨c0, l1, l2, rfl, hps, hl1, hall⟩
  | cons c rest ih =>
    intro best col alpha ev m cu pr ps hge hinv
    simp only [abRootLoop]
    by_cases hc : g.is_valid b c = true
    · rw [if_pos hc]
      by_cases hv : (f (g.get_new_board b c pid) alpha).value > best
      · rw [if_pos hv]
        have hmono := abRootLoop_value_ge g pid b f rest
          ((f (g.get_new_board b c pid) alpha).value) (c : Int)
          (max alpha (f (g.get_new_board b c pid) alpha).value)
          (ev + (f (g.get_new_board b c pid) alpha).evals)
          (max m (f (g.get_new_board b c pid) alpha).md)
          (cu || (f (g.get_new_board b c pid) alpha).cut)
          (pr || (f (g.get_new_board b c pid) alpha).pruned)
          (ps ++ [(c, (f (g.get_new_board b c pid) alpha).value)])
        have harg := ih ((f (g.get_new_board b c pid) alpha).value) (c : Int)
          (max alpha (f (g.get_new_board b c pid) alpha).value)
          (ev + (f (g.get_new_board b c pid) alpha).evals)
          (max m (f (g.get_new_board b c pid) alpha).md)
          (cu || (f (g.get_new_board b c pid) alpha).cut)
          (pr || (f (g.get_new_board b c pid) alpha).pruned)
          (ps ++ [(c, (f (g.get_new_board b c pid) alpha).value)])
          (by omega)
          (Or.inr ⟨c, ps, [], rfl, rfl,
            (by
              intro q hq
              rcases hinv with ⟨hbb, hqs⟩ | ⟨c0, l1, l2, _, hps, hl1, hall⟩
              · have := hqs q hq
                omega
              · have := hall q hq
                omega),
            (by
              intro q hq
              rcases List.mem_append.mp hq with hq1 | hq2
              · rcases hinv with ⟨hbb, hqs⟩ | ⟨c0, l1, l2, _, hps, hl1, hall⟩
                · have := hqs q hq1
                  omega
                · have := hall q hq1
                  omega
              · rcases List.mem_singleton.mp hq2 with rfl
                exact le_refl _)⟩)
        rcases harg with ⟨hval, _, _⟩ | h
        · exfalso
          omega
        · exact Or.inr h
      · rw [if_neg hv]
        have harg := ih best col (max alpha best)
          (ev + (f (g.get_new_board b c pid) alpha).evals)
          (max m (f (g.get_new_board b c pid) alpha).md)
          (cu || (f (g.get_new_board b c pid) alpha).cut)
          (pr || (f (g.get_new_board b c pid) alpha).pruned)
          (ps ++ [(c, (f (g.get_new_board b c pid) alpha).value)]) hge ?_
        · exact harg
        · rcases hinv with ⟨hbb, hqs⟩ | ⟨c0, l1, l2, hcol, hps, hl1, hall⟩
          · refine Or.inl ⟨hbb, ?_⟩
            intro q hq
            rcases List.mem_append.mp hq with hq1 | hq2
            · exact hqs q hq1
            · rcases List.mem_singleton.mp hq2 with rfl
              omega
          · refine Or.inr ⟨c0, l1,
              l2 ++ [(c, (f (g.get_new_board b c pid) alpha).value)], hcol, ?_, hl1, ?_⟩
            · rw [hps, List.append_assoc, List.cons_append]
            · intro q hq
              rcases List.mem_append.mp hq with hq1 | hq2
              · exact hall q hq1
              · rcases List.mem_singleton.mp hq2 with rfl
                omega
    · rw [if_neg hc]
      exact ih best col alpha ev m cu pr ps hge hinv

end FirstArgmax

/-- Counterexample to C7 as stated: with a heuristic whose evaluations equal
the `-10**9` sentinel, no computed root value ever strictly exceeds the
initial best value, so the returned column is not the lowest-indexed column
among those attaining the maximal computed value: minimax (empty 1x1 board,
depth 1) examines the pair `(0, -10**9)` yet returns `-1`, and alpha-beta
(2x1 board, column 0 full, depth 1) examines only `(1, -10**9)` yet returns
the default column `0`, which is not even legal. -/
theorem C7_counterexample_sentinel :
    (MinMaxPlayer.make_move (fun _ => 0) (fun _ _ => -BIG) 1 1 ⟨1, [[]]⟩).pairs
        = [(0, -BIG)] ∧
      (MinMaxPlayer.make_move (fun _ => 0) (fun _ _ => -BIG) 1 1 ⟨1, [[]]⟩).col
        = -1 ∧
      (AlphaBetaPlayer.make_move (fun _ => 0) (fun _ _ => -BIG) 1 1
          ⟨1, [[1], []]⟩).pairs = [(1, -BIG)] ∧
      (AlphaBetaPlayer.make_move (fun _ => 0) (fun _ _ => -BIG) 1 1
          ⟨1, [[1], []]⟩).col = 0 ∧
      CBoard.is_valid ⟨1, [[1], []]⟩ 0 = false := by
  exact ⟨by decide, by decide, by decide, by decide, by decide⟩

/-- Claim C7, amended (corrected): both root loops examine the legal columns
in ascending order and replace the incumbent only on a strictly greater
value; provided at least one computed root value exceeds the `-10**9`
sentinel, the returned column is the first-seen column attaining the maximal
computed value (every earlier examined value is strictly smaller, every
examined value is at most it). -/
theorem C7_amended_first_seen_argmax {β : Type} (g : Game β) (pid : Nat)
    (depth : Int) (fuel : Nat) (board : β) :
    ((∃ q ∈ (MinMaxPlayer.make_moveF g pid depth fuel board).pairs, -BIG < q.2) →
      ∃ (c0 : Nat) (l1 l2 : List (Nat × Int)),
        (MinMaxPlayer.make_moveF g pid depth fuel board).col = (c0 : Int) ∧
        (MinMaxPlayer.make_moveF g pid depth fuel board).pairs =
          l1 ++ (c0, (MinMaxPlayer.make_moveF g pid depth fuel board).value) :: l2 ∧
        (∀ q ∈ l1, q.2 < (MinMaxPlayer.make_moveF g pid depth fuel board).value) ∧
        (∀ q ∈ (MinMaxPlayer.make_moveF g pid depth fuel board).pairs,
          q.2 ≤ (MinMaxPlayer.make_moveF g pid depth fuel board).value)) ∧
    ((∃ q ∈ (AlphaBetaPlayer.make_moveF g pid depth fuel board).pairs, -BIG < q.2) →
      ∃ (c0 : Nat) (l1 l2 : List (Nat × Int)),
        (AlphaBetaPlayer.make_moveF g pid depth fuel board).col = (c0 : Int) ∧
        (AlphaBetaPlayer.make_moveF g pid depth fuel board).pairs =
          l1 ++ (c0, (AlphaBetaPlayer.make_moveF g pid depth fuel board).value) :: l2 ∧
        (∀ q ∈ l1, q.2 < (AlphaBetaPlayer.make_moveF g pid depth fuel board).value) ∧
        (∀ q ∈ (AlphaBetaPlayer.make_moveF g pid depth fuel board).pairs,
          q.2 ≤ (AlphaBetaPlayer.make_moveF g pid depth fuel board).value)) := by
  constructor
  · intro hex
    rcases hex with ⟨q, hqm, hq⟩
    rcases mmRootLoop_argmax g pid board
      (fun b2 => mmRec g pid (opponentOf pid) fuel b2 (depth - 1) false)
      (List.range (g.width board)) (-BIG) none 0 0 [] (le_refl _)
      (Or.inl ⟨rfl, rfl, fun q2 hq2 => nomatch hq2⟩) with h | h
    · exact absurd hq (by have := h.2 q hqm; omega)
    · exact h
  · intro hex
    rcases hex with ⟨q, hqm, hq⟩
    rcases abRootLoop_argmax g pid board
      (fun b2 a => abRec g pid (opponentOf pid) fuel b2 (depth - 1) a BIG false)
      (List.range (g.width board)) (-BIG) 0 (-BIG) 0 0 false false [] (le_refl _)
      (Or.inl ⟨rfl, fun q2 hq2 => nomatch hq2⟩) with h | h
    · exact absurd hq (by have := h.2.2 q hqm; omega)
    · exact h

/-- Witness for the amended C7 on the empty 2x1 board with the zero
heuristic at depth 2: both decisions return column 0, the first-seen column
attaining the maximal computed root value. -/
theorem C7_amended_first_seen_argmax_witness :
    (∃ (c0 : Nat) (l1 l2 : List (Nat × Int)),
        (MinMaxPlayer.make_moveF (CGame (fun _ => 0) (fun _ _ => 0)) 1 2 3
            ⟨1, [[], []]⟩).col = (c0 : Int) ∧
        (MinMaxPlayer.make_moveF (CGame (fun _ => 0) (fun _ _ => 0)) 1 2 3
            ⟨1, [[], []]⟩).pairs =
          l1 ++ (c0, (MinMaxPlayer.make_moveF (CGame (fun _ => 0) (fun _ _ => 0))
            1 2 3 ⟨1, [[], []]⟩).value) :: l2 ∧
        (∀ q ∈ l1, q.2 < (MinMaxPlayer.make_moveF (CGame (fun _ => 0) (fun _ _ => 0))
          1 2 3 ⟨1, [[], []]⟩).value) ∧
        (∀ q ∈ (MinMaxPlayer.make_moveF (CGame (fun _ => 0) (fun _ _ => 0)) 1 2 3
            ⟨1, [[], []]⟩).pairs,
          q.2 ≤ (MinMaxPlayer.make_moveF (CGame (fun _ => 0) (fun _ _ => 0)) 1 2 3
            ⟨1, [[], []]⟩).value)) ∧
    (∃ (c0 : Nat) (l1 l2 : List (Nat × Int)),
        (AlphaBetaPlayer.make_moveF (CGame (fun _ => 0) (fun _ _ => 0)) 1 2 3
            ⟨1, [[], []]⟩).col = (c0 : Int) ∧
        (AlphaBetaPlayer.make_moveF (CGame (fun _ => 0) (fun _ _ => 0)) 1 2 3
            ⟨1, [[], []]⟩).pairs =
          l1 ++ (c0, (AlphaBetaPlayer.make_moveF (CGame (fun _ => 0) (fun _ _ => 0))
            1 2 3 ⟨1, [[], []]⟩).value) :: l2 ∧
        (∀ q ∈ l1, q.2 < (AlphaBetaPlayer.make_moveF (CGame (fun _ => 0) (fun _ _ => 0))
          1 2 3 ⟨1, [[], []]⟩).value) ∧
        (∀ q ∈ (AlphaBetaPlayer.make_moveF (CGame (fun _ => 0) (fun _ _ => 0)) 1 2 3
            ⟨1, [[], []]⟩).pairs,
          q.2 ≤ (AlphaBetaPlayer.make_moveF (CGame (fun _ => 0) (fun _ _ => 0)) 1 2 3
            ⟨1, [[], []]⟩).value)) :=
  ⟨(C7_amended_first_seen_argmax (CGame (fun _ => 0) (fun _ _ => 0)) 1 2 3
      ⟨1, [[], []]⟩).1 (by decide),
    (C7_amended_first_seen_argmax (CGame (fun _ => 0) (fun _ _ => 0)) 1 2 3
      ⟨1, [[], []]⟩).2 (by decide)⟩

section EvalCounts

variable {β : Type} (g : Game β) (pid opp : Nat) (b : β)

theorem mmMaxLoop_evals_ge (f : β → MMOut) :
    ∀ (cols : List Nat) (best : Int) (ev m : Nat),
      ev ≤ (mmMaxLoop g pid f b cols best ev m).evals := by
  intro cols
  induction cols with
  | nil => intro best ev m; exact le_refl _
  | cons c rest ih =>
    intro best ev m
    simp only [mmMaxLoop]
    by_cases hc : g.is_valid b c = true
    · rw [if_pos hc]
      have := ih (max best (f (g.get_new_board b c pid)).value)
        (ev + (f (g.get_new_board b c pid)).evals)
        (max m (f (g.get_new_board b c pid)).md)
      omega
    · rw [if_neg hc]
      exact ih best ev m

theorem mmMinLoop_evals_ge (f : β → MMOut) :
    ∀ (cols : List Nat) (best : Int) (ev m : Nat),
      ev ≤ (mmMinLoop g opp f b cols best ev m).evals := by
  intro cols
  induction cols with
  | nil => intro best ev m; exact le_refl _
  | cons c rest ih =>
    intro best ev m
    simp only [mmMinLoop]
    by_cases hc : g.is_valid b c = true
    · rw [if_pos hc]
      have := ih (min best (f (g.get_new_board b c opp)).value)
        (ev + (f (g.get_new_board b c opp)).evals)
        (max m (f (g.get_new_board b c opp)).md)
      omega
    · rw [if_neg hc]
      exact ih best ev m

theorem mmMaxLoop_evals_succ (f : β → MMOut) :
    ∀ (cols : List Nat) (best : Int) (ev m : Nat),
      (∃ c ∈ cols, g.is_valid b c = true) →
      (∀ c ∈ cols, g.is_valid b c = true →
        1 ≤ (f (g.get_new_board b c pid)).evals) →
      ev + 1 ≤ (mmMaxLoop g pid f b cols best ev m).evals := by
  intro cols
  induction cols with
  | nil =>
    intro best ev m hex _
    rcases hex with ⟨c, hmem, _⟩
    exact absurd hmem (List.not_mem_nil c)
  | cons c rest ih =>
    intro best ev m hex hf
    simp only [mmMaxLoop]
    by_cases hc : g.is_valid b c = true
    · rw [if_pos hc]
      have h1 := hf c (List.mem_cons_self c rest) hc
      have h2 := mmMaxLoop_evals_ge g pid b f rest
        (max best (f (g.get_new_board b c pid)).value)
        (ev + (f (g.get_new_board b c pid)).evals)
        (max m (f (g.get_new_board b c pid)).md)
      omega
    · rw [if_neg hc]
      rcases hex with ⟨c2, hmem, hval⟩
      have hc2 : c2 ≠ c := fun h => by rw [h] at hval; exact hc hval
      rcases List.mem_cons.mp hmem with heq | hmem2
      · exact absurd heq hc2
      · exact ih best ev m ⟨c2, hmem2, hval⟩
          (fun c3 h3 h4 => hf c3 (List.mem_cons_of_mem c h3) h4)

theorem mmMinLoop_evals_succ (f : β → MMOut) :
    ∀ (cols : List Nat) (best : Int) (ev m : Nat),
      (∃ c ∈ cols, g.is_valid b c = true) →
      (∀ c ∈ cols, g.is_valid b c = true →
        1 ≤ (f (g.get_new_board b c opp)).evals) →
      ev + 1 ≤ (mmMinLoop g opp f b cols best ev m).evals := by
  intro cols
  induction cols with
  | nil =>
    intro best ev m hex _
    rcases hex with ⟨c, hmem, _⟩
    exact absurd hmem (List.not_mem_nil c)
  | cons c rest ih =>
    intro best ev m hex hf
    simp only [mmMinLoop]
    by_cases hc : g.is_valid b c = true
    · rw [if_pos hc]
      have h1 := hf c (List.mem_cons_self c rest) hc
      have h2 := mmMinLoop_evals_ge g opp b f rest
        (min best (f (g.get_new_board b c opp)).value)
        (ev + (f (g.get_new_board b c opp)).evals)
        (max m (f (g.get_new_board b c opp)).md)
      omega
    · rw [if_neg hc]
      rcases hex with ⟨c2, hmem, hval⟩
      have hc2 : c2 ≠ c := fun h => by rw [h] at hval; exact hc hval
      rcases List.mem_cons.mp hmem with heq | hmem2
      · exact absurd heq hc2
      · exact ih best ev m ⟨c2, hmem2, hval⟩
          (fun c3 h3 h4 => hf c3 (List.mem_cons_of_mem c h3) h4)

theorem mmRec_evals_pos :
    ∀ (fuel : Nat) (b : β) (depth : Int) (maximizing : Bool),
      1 ≤ (mmRec g pid opp fuel b depth maximizing).evals := by
  intro fuel
  induction fuel with
  | zero => intro b depth maxim; simp [mmRec]
  | succ fuel ih =>
    intro b depth maxim
    by_cases ht : terminal_or_depth g b depth = true
    · simp [mmRec, ht]
    · obtain ⟨c, hcm, hcv⟩ := not_terminal_exists_valid g b ht
      have hmax := mmMaxLoop_evals_succ g pid b
        (fun b2 => mmRec g pid opp fuel b2 (depth - 1) false)
        (List.range (g.width b)) (-BIG) 0 0 ⟨c, hcm, hcv⟩
        (fun c2 _ _ => ih _ (depth - 1) false)
      have hmin := mmMinLoop_evals_succ g opp b
        (fun b2 => mmRec g pid opp fuel b2 (depth - 1) true)
        (List.range (g.width b)) BIG 0 0 ⟨c, hcm, hcv⟩
        (fun c2 _ _ => ih _ (depth - 1) true)
      cases maxim <;> simp [mmRec, ht] <;> omega

theorem abMaxLoop_counts (f2 : β → MMOut) (fab : β → Int → ABOut) (beta : Int)
    (cols : List Nat)
    (hfe : ∀ c ∈ cols, g.is_valid b c = true → ∀ a : Int,
      (fab (g.get_new_board b c pid) a).evals ≤ (f2 (g.get_new_board b c pid)).evals)
    (hfs : ∀ c ∈ cols, g.is_valid b c = true → ∀ a : Int,
      (fab (g.get_new_board b c pid) a).pruned = true →
      (fab (g.get_new_board b c pid) a).evals < (f2 (g.get_new_board b c pid)).evals)
    (hfm : ∀ c ∈ cols, g.is_valid b c = true →
      1 ≤ (f2 (g.get_new_board b c pid)).evals) :
    ∀ (value alpha : Int) (evA mA : Nat) (cuA prA : Bool) (best : Int) (evM mM : Nat),
      evA ≤ evM → (prA = true → evA < evM) →
      (abMaxLoop g pid fab b beta cols value alpha evA mA cuA prA).evals ≤
        (mmMaxLoop g pid f2 b cols best evM mM).evals ∧
      ((abMaxLoop g pid fab b beta cols value alpha evA mA cuA prA).pruned = true →
        (abMaxLoop g pid fab b beta cols value alpha evA mA cuA prA).evals <
          (mmMaxLoop g pid f2 b cols best evM mM).evals) := by
  induction cols with
  | nil =>
    intro value alpha evA mA cuA prA best evM mM hle hpr
    exact ⟨hle, hpr⟩
  | cons c rest ih =>
    intro value alpha evA mA cuA prA best evM mM hle hpr
    simp only [abMaxLoop, mmMaxLoop]
    by_cases hc : g.is_valid b c = true
    · rw [if_pos hc, if_pos hc]
      have he := hfe c (List.mem_cons_self c rest) hc alpha
      by_cases hcut : beta ≤ max alpha (max value (fab (g.get_new_board b c pid) alpha).value)
      · rw [if_pos hcut]
        have hge := mmMaxLoop_evals_ge g pid b f2 rest
          (max best (f2 (g.get_new_board b c pid)).value)
          (evM + (f2 (g.get_new_board b c pid)).evals)
          (max mM (f2 (g.get_new_board b c pid)).md)
        constructor
        · dsimp only
          omega
        · intro hp
          try dsimp only
          simp only [Bool.or_eq_true] at hp
          rcases hp with (hpA | hpR) | hrest
          · have := hpr hpA
            omega
          · have := hfs c (List.mem_cons_self c rest) hc alpha hpR
            omega
          · obtain ⟨c2, hc2m, hc2v⟩ := List.any_eq_true.mp hrest
            have hsucc := mmMaxLoop_evals_succ g pid b f2 rest
              (max best (f2 (g.get_new_board b c pid)).value)
              (evM + (f2 (g.get_new_board b c pid)).evals)
              (max mM (f2 (g.get_new_board b c pid)).md)
              ⟨c2, hc2m, hc2v⟩
              (fun c3 h3 h4 => hfm c3 (List.mem_cons_of_mem c h3) h4)
            try dsimp only
            omega
      · rw [if_neg hcut]
        apply ih
          (fun c2 h2 h3 => hfe c2 (List.mem_cons_of_mem c h2) h3)
          (fun c2 h2 h3 => hfs c2 (List.mem_cons_of_mem c h2) h3)
          (fun c2 h2 h3 => hfm c2 (List.mem_cons_of_mem c h2) h3)
        · omega
        · intro hp
          simp only [Bool.or_eq_true] at hp
          rcases hp with hpA | hpR
          · have := hpr hpA
            omega
          · have := hfs c (List.mem_cons_self c rest) hc alpha hpR
            omega
    · rw [if_neg hc, if_neg hc]
      exact ih
        (fun c2 h2 h3 => hfe c2 (List.mem_cons_of_mem c h2) h3)
        (fun c2 h2 h3 => hfs c2 (List.mem_cons_of_mem c h2) h3)
        (fun c2 h2 h3 => hfm c2 (List.mem_cons_of_mem c h2) h3)
        _ _ _ _ _ _ _ _ _ hle hpr

theorem abMinLoop_counts (f2 : β → MMOut) (fab : β → Int → ABOut) (alpha : Int)
    (cols : List Nat)
    (hfe : ∀ c ∈ cols, g.is_valid b c = true → ∀ bb : Int,
      (fab (g.get_new_board b c opp) bb).evals ≤ (f2 (g.get_new_board b c opp)).evals)
    (hfs : ∀ c ∈ cols, g.is_valid b c = true → ∀ bb : Int,
      (fab (g.get_new_board b c opp) bb).pruned = true →
      (fab (g.get_new_board b c opp) bb).evals < (f2 (g.get_new_board b c opp)).evals)
    (hfm : ∀ c ∈ cols, g.is_valid b c = true →
      1 ≤ (f2 (g.get_new_board b c opp)).evals) :
    ∀ (value beta : Int) (evA mA : Nat) (cuA prA : Bool) (best : Int) (evM mM : Nat),
      evA ≤ evM → (prA = true → evA < evM) →
      (abMinLoop g opp fab b alpha cols value beta evA mA cuA prA).evals ≤
        (mmMinLoop g opp f2 b cols best evM mM).evals ∧
      ((abMinLoop g opp fab b alpha cols value beta evA mA cuA prA).pruned = true →
        (abMinLoop g opp fab b alpha cols value beta evA mA cuA prA).evals <
          (mmMinLoop g opp f2 b cols best evM mM).evals) := by
  induction cols with
  | nil =>
    intro value beta evA mA cuA prA best evM mM hle hpr
    exact ⟨hle, hpr⟩
  | cons c rest ih =>
    intro value beta evA mA cuA prA best evM mM hle hpr
    simp only [abMinLoop, mmMinLoop]
    by_cases hc : g.is_valid b c = true
    · rw [if_pos hc, if_pos hc]
      have he := hfe c (List.mem_cons_self c rest) hc beta
      by_cases hcut : min beta (min value (fab (g.get_new_board b c opp) beta).value) ≤ alpha
      · rw [if_pos hcut]
        have hge := mmMinLoop_evals_ge g opp b f2 rest
          (min best (f2 (g.get_new_board b c opp)).value)
          (evM + (f2 (g.get_new_board b c opp)).evals)
          (max mM (f2 (g.get_new_board b c opp)).md)
        constructor
        · dsimp only
          omega
        · intro hp
          try dsimp only
          simp only [Bool.or_eq_true] at hp
          rcases hp with (hpA | hpR) | hrest
          · have := hpr hpA
            omega
          · have := hfs c (List.mem_cons_self c rest) hc beta hpR
            omega
          · obtain ⟨c2, hc2m, hc2v⟩ := List.any_eq_true.mp hrest
            have hsucc := mmMinLoop_evals_succ g opp b f2 rest
              (min best (f2 (g.get_new_board b c opp)).value)
              (evM + (f2 (g.get_new_board b c opp)).evals)
              (max mM (f2 (g.get_new_board b c opp)).md)
              ⟨c2, hc2m, hc2v⟩
              (fun c3 h3 h4 => hfm c3 (List.mem_cons_of_mem c h3) h4)
            try dsimp only
            omega
      · rw [if_neg hcut]
        apply ih
          (fun c2 h2 h3 => hfe c2 (List.mem_cons_of_mem c h2) h3)
          (fun c2 h2 h3 => hfs c2 (List.mem_cons_of_mem c h2) h3)
          (fun c2 h2 h3 => hfm c2 (List.mem_cons_of_mem c h2) h3)
        · omega
        · intro hp
          simp only [Bool.or_eq_true] at hp
          rcases hp with hpA | hpR
          · have := hpr hpA
            omega
          · have := hfs c (List.mem_cons_self c rest) hc beta hpR
            omega
    · rw [if_neg hc, if_neg hc]
      exact ih
        (fun c2 h2 h3 => hfe c2 (List.mem_cons_of_mem c h2) h3)
        (fun c2 h2 h3 => hfs c2 (List.mem_cons_of_mem c h2) h3)
        (fun c2 h2 h3 => hfm c2 (List.mem_cons_of_mem c h2) h3)
        _ _ _ _ _ _ _ _ _ hle hpr

theorem abRec_counts :
    ∀ (fuel : Nat) (b : β) (depth : Int) (alpha beta : Int) (maximizing : Bool),
      (abRec g pid opp fuel b depth alpha beta maximizing).evals ≤
        (mmRec g pid opp fuel b depth maximizing).evals ∧
      ((abRec g pid opp fuel b depth alpha beta maximizing).pruned = true →
        (abRec g pid opp fuel b depth alpha beta maximizing).evals <
          (mmRec g pid opp fuel b depth maximizing).evals) := by
  intro fuel
  induction fuel with
  | zero =>
    intro b depth alpha beta maxim
    exact ⟨le_refl _, fun h => nomatch h⟩
  | succ fuel ih =>
    intro b depth alpha beta maxim
    by_cases ht : terminal_or_depth g b depth = true
    · constructor
      · simp [abRec, mmRec, ht]
      · intro hp
        rw [abRec] at hp
        rw [if_pos ht] at hp
        exact absurd hp (by simp)
    · have hmaxcmp := abMaxLoop_counts g pid b
        (fun b2 => mmRec g pid opp fuel b2 (depth - 1) false)
        (fun b2 a => abRec g pid opp fuel b2 (depth - 1) a beta false) beta
        (List.range (g.width b))
        (fun c _ _ a => (ih _ (depth - 1) a beta false).1)
        (fun c _ _ a hp => (ih _ (depth - 1) a beta false).2 hp)
        (fun c _ _ => mmRec_evals_pos g pid opp fuel _ (depth - 1) false)
        (-BIG) alpha 0 0 false false (-BIG) 0 0 (le_refl 0) (fun h => nomatch h)
      have hmincmp := abMinLoop_counts g opp b
        (fun b2 => mmRec g pid opp fuel b2 (depth - 1) true)
        (fun b2 bb => abRec g pid opp fuel b2 (depth - 1) alpha bb true) alpha
        (List.range (g.width b))
        (fun c _ _ bb => (ih _ (depth - 1) alpha bb true).1)
        (fun c _ _ bb hp => (ih _ (depth - 1) alpha bb true).2 hp)
        (fun c _ _ => mmRec_evals_pos g pid opp fuel _ (depth - 1) true)
        BIG beta 0 0 false false BIG 0 0 (le_refl 0) (fun h => nomatch h)
      cases maxim
      · constructor
        · simpa [abRec, mmRec, ht] using hmincmp.1
        · intro hp
          rw [abRec] at hp
          rw [if_neg ht] at hp
          simp only [Bool.false_eq_true, if_false, if_neg] at hp
          have := hmincmp.2 hp
          simpa [abRec, mmRec, ht] using this
      · constructor
        · simpa [abRec, mmRec, ht] using hmaxcmp.1
        · intro hp
          rw [abRec] at hp
          rw [if_neg ht] at hp
          simp only [if_true, if_pos] at hp
          have := hmaxcmp.2 hp
          simpa [abRec, mmRec, ht] using this

theorem abRootLoop_counts (f2 : β → MMOut) (fab : β → Int → ABOut)
    (cols : List Nat)
    (hfe : ∀ c ∈ cols, g.is_valid b c = true → ∀ a : Int,
      (fab (g.get_new_board b c pid) a).evals ≤ (f2 (g.get_new_board b c pid)).evals)
    (hfs : ∀ c ∈ cols, g.is_valid b c = true → ∀ a : Int,
      (fab (g.get_new_board b c pid) a).pruned = true →
      (fab (g.get_new_board b c pid) a).evals < (f2 (g.get_new_board b c pid)).evals) :
    ∀ (bestM : Int) (colM : Option Nat) (evM mM : Nat) (psM : List (Nat × Int))
      (bestA colA alpha : Int) (evA mA : Nat) (cuA prA : Bool)
      (psA : List (Nat × Int)),
      evA ≤ evM → (prA = true → evA < evM) →
      (abRootLoop g pid fab b cols bestA colA alpha evA mA cuA prA psA).evals ≤
        (mmRootLoop g pid f2 b cols bestM colM evM mM psM).evals ∧
      ((abRootLoop g pid fab b cols bestA colA alpha evA mA cuA prA psA).pruned = true →
        (abRootLoop g pid fab b cols bestA colA alpha evA mA cuA prA psA).evals <
          (mmRootLoop g pid f2 b cols bestM colM evM mM psM).evals) := by
  induction cols with
  | nil =>
    intro bestM colM evM mM psM bestA colA alpha evA mA cuA prA psA hle hpr
    exact ⟨hle, hpr⟩
  | cons c rest ih =>
    intro bestM colM evM mM psM bestA colA alpha evA mA cuA prA psA hle hpr
    simp only [abRootLoop, mmRootLoop]
    by_cases hc : g.is_valid b c = true
    · rw [if_pos hc, if_pos hc]
      have he := hfe c (List.mem_cons_self c rest) hc alpha
      have hnext : evA + (fab (g.get_new_board b c pid) alpha).evals ≤
          evM + (f2 (g.get_new_board b c pid)).evals := by omega
      have hnexts : (cuA || (fab (g.get_new_board b c pid) alpha).cut) = true ∨ True :=
        Or.inr trivial
      have hprop : ((prA || (fab (g.get_new_board b c pid) alpha).pruned) = true →
          evA + (fab (g.get_new_board b c pid) alpha).evals <
            evM + (f2 (g.get_new_board b c pid)).evals) := by
        intro hp
        simp only [Bool.or_eq_true] at hp
        rcases hp with hpA | hpR
        · have := hpr hpA
          omega
        · have := hfs c (List.mem_cons_self c rest) hc alpha hpR
          omega
      by_cases hvA : (fab (g.get_new_board b c pid) alpha).value > bestA
      · rw [if_pos hvA]
        by_cases hvM : (f2 (g.get_new_board b c pid)).value > bestM
        · rw [if_pos hvM]
          exact ih
            (fun c2 h2 h3 => hfe c2 (List.mem_cons_of_mem c h2) h3)
            (fun c2 h2 h3 => hfs c2 (List.mem_cons_of_mem c h2) h3)
            _ _ _ _ _ _ _ _ _ _ _ _ _ hnext hprop
        · rw [if_neg hvM]
          exact ih
            (fun c2 h2 h3 => hfe c2 (List.mem_cons_of_mem c h2) h3)
            (fun c2 h2 h3 => hfs c2 (List.mem_cons_of_mem c h2) h3)
            _ _ _ _ _ _ _ _ _ _ _ _ _ hnext hprop
      · rw [if_neg hvA]
        by_cases hvM : (f2 (g.get_new_board b c pid)).value > bestM
        · rw [if_pos hvM]
          exact ih
            (fun c2 h2 h3 => hfe c2 (List.mem_cons_of_mem c h2) h3)
            (fun c2 h2 h3 => hfs c2 (List.mem_cons_of_mem c h2) h3)
            _ _ _ _ _ _ _ _ _ _ _ _ _ hnext hprop
        · rw [if_neg hvM]
          exact ih
            (fun c2 h2 h3 => hfe c2 (List.mem_cons_of_mem c h2) h3)
            (fun c2 h2 h3 => hfs c2 (List.mem_cons_of_mem c h2) h3)
            _ _ _ _ _ _ _ _ _ _ _ _ _ hnext hprop
    · rw [if_neg hc, if_neg hc]
      exact ih
        (fun c2 h2 h3 => hfe c2 (List.mem_cons_of_mem c h2) h3)
        (fun c2 h2 h3 => hfs c2 (List.mem_cons_of_mem c h2) h3)
        _ _ _ _ _ _ _ _ _ _ _ _ _ hle hpr

end EvalCounts

/-- Counterexample to C2 as stated: on the empty 2x1 board with the zero
heuristic at depth 2, a beta cutoff fires inside the alpha-beta search (on
the last valid child of a minimizing node, so nothing is skipped), yet both
searches perform exactly 2 leaf evaluations — the counts are equal, not
strictly smaller. -/
theorem C2_counterexample_cutoff_on_last_child :
    (AlphaBetaPlayer.make_move (fun _ => 0) (fun _ _ => 0) 1 2
        ⟨1, [[], []]⟩).cut = true ∧
      (AlphaBetaPlayer.make_move (fun _ => 0) (fun _ _ => 0) 1 2
          ⟨1, [[], []]⟩).evals = 2 ∧
      (MinMaxPlayer.make_move (fun _ => 0) (fun _ _ => 0) 1 2
          ⟨1, [[], []]⟩).evals = 2 := by
  exact ⟨by decide, by decide, by decide⟩

/-- Claim C2, amended (corrected): for identical inputs the alpha-beta
leaf-evaluation count never exceeds the minimax count, and it is strictly
smaller whenever some cutoff actually prunes — skips at least one remaining
valid column.  (A cutoff that fires on the last valid child of a node skips
nothing and need not reduce the count.) -/
theorem C2_amended_eval_counts {β : Type} (g : Game β) (pid : Nat)
    (depth : Int) (fuel : Nat) (b : β) :
    (AlphaBetaPlayer.make_moveF g pid depth fuel b).evals ≤
      (MinMaxPlayer.make_moveF g pid depth fuel b).evals ∧
    ((AlphaBetaPlayer.make_moveF g pid depth fuel b).pruned = true →
      (AlphaBetaPlayer.make_moveF g pid depth fuel b).evals <
        (MinMaxPlayer.make_moveF g pid depth fuel b).evals) := by
  unfold AlphaBetaPlayer.make_moveF MinMaxPlayer.make_moveF
  exact abRootLoop_counts g pid b
    (fun b2 => mmRec g pid (opponentOf pid) fuel b2 (depth - 1) false)
    (fun b2 a => abRec g pid (opponentOf pid) fuel b2 (depth - 1) a BIG false)
    (List.range (g.width b))
    (fun c _ _ a =>
      (abRec_counts g pid (opponentOf pid) fuel _ (depth - 1) a BIG false).1)
    (fun c _ _ a hp =>
      (abRec_counts g pid (opponentOf pid) fuel _ (depth - 1) a BIG false).2 hp)
    (-BIG) none 0 0 [] (-BIG) 0 (-BIG) 0 0 false false []
    (le_refl 0) (fun h => nomatch h)

/-- Witness for the amended C2 on the empty 3x1 board with the zero heuristic
at depth 2: a cutoff prunes a remaining valid sibling (`pruned = true`) and
the alpha-beta count (4) is strictly below the minimax count (6). -/
theorem C2_amended_eval_counts_witness :
    (AlphaBetaPlayer.make_move (fun _ => 0) (fun _ _ => 0) 1 2
        ⟨1, [[], [], []]⟩).pruned = true ∧
      (AlphaBetaPlayer.make_move (fun _ => 0) (fun _ _ => 0) 1 2
          ⟨1, [[], [], []]⟩).evals <
        (MinMaxPlayer.make_move (fun _ => 0) (fun _ _ => 0) 1 2
          ⟨1, [[], [], []]⟩).evals :=
  ⟨by decide,
    (C2_amended_eval_counts (CGame (fun _ => 0) (fun _ _ => 0)) 1 2
      ((CBoard.emptyCells ⟨1, [[], [], []]⟩) + 1) ⟨1, [[], [], []]⟩).2 (by decide)⟩

section PruningEquivalence

variable {β : Type} (g : Game β) (pid opp : Nat) (b : β)

theorem abMinLoop_value_le (f : β → Int → ABOut) (alpha : Int) :
    ∀ (cols : List Nat) (value beta : Int) (ev m : Nat) (cu pr : Bool),
      (abMinLoop g opp f b alpha cols value beta ev m cu pr).value ≤ value := by
  intro cols
  induction cols with
  | nil => intro value beta ev m cu pr; exact le_refl _
  | cons c rest ih =>
    intro value beta ev m cu pr
    simp only [abMinLoop]
    by_cases hc : g.is_valid b c = true
    · rw [if_pos hc]
      by_cases hcut : min beta (min value (f (g.get_new_board b c opp) beta).value) ≤ alpha
      · rw [if_pos hcut]
        dsimp only
        omega
      · rw [if_neg hcut]
        have := ih (min value (f (g.get_new_board b c opp) beta).value)
          (min beta (min value (f (g.get_new_board b c opp) beta).value))
          (ev + (f (g.get_new_board b c opp) beta).evals)
          (max m (f (g.get_new_board b c opp) beta).md)
          (cu || (f (g.get_new_board b c opp) beta).cut)
          (pr || (f (g.get_new_board b c opp) beta).pruned)
        omega
    · rw [if_neg hc]
      exact ih value beta ev m cu pr

theorem mmMinLoop_value_le (f : β → MMOut) :
    ∀ (cols : List Nat) (best : Int) (ev m : Nat),
      (mmMinLoop g opp f b cols best ev m).value ≤ best := by
  intro cols
  induction cols with
  | nil => intro best ev m; exact le_refl _
  | cons c rest ih =>
    intro best ev m
    simp only [mmMinLoop]
    by_cases hc : g.is_valid b c = true
    · rw [if_pos hc]
      have := ih (min best (f (g.get_new_board b c opp)).value)
        (ev + (f (g.get_new_board b c opp)).evals)
        (max m (f (g.get_new_board b c opp)).md)
      omega
    · rw [if_neg hc]
      exact ih best ev m

theorem abMin_call_disj :
    ∀ (fuel : Nat) (b : β) (depth : Int) (alpha beta : Int),
      (abRec g pid opp fuel b depth alpha beta false).value =
        (mmRec g pid opp fuel b depth false).value ∨
      ((abRec g pid opp fuel b depth alpha beta false).value ≤ BIG ∧
        (mmRec g pid opp fuel b depth false).value ≤ BIG) := by
  intro fuel
  cases fuel with
  | zero => intro b depth alpha beta; exact Or.inl rfl
  | succ fuel =>
    intro b depth alpha beta
    by_cases ht : terminal_or_depth g b depth = true
    · exact Or.inl (by simp [abRec, mmRec, ht])
    · refine Or.inr ⟨?_, ?_⟩
      · have := abMinLoop_value_le g opp b
          (fun b2 bb => abRec g pid opp fuel b2 (depth - 1) alpha bb true) alpha
          (List.range (g.width b)) BIG beta 0 0 false false
        simp only [abRec, if_neg ht, Bool.false_eq_true, if_false]
        exact this
      · have := mmMinLoop_value_le g opp b
          (fun b2 => mmRec g pid opp fuel b2 (depth - 1) true)
          (List.range (g.width b)) BIG 0 0
        simp only [mmRec, if_neg ht, Bool.false_eq_true, if_false]
        exact this

theorem abMaxLoop_clamp (f2 : β → MMOut) (fab : β → Int → ABOut) (A beta : Int)
    (cols : List Nat)
    (hA : -BIG ≤ A) (hAb : A < beta)
    (hfa : ∀ c ∈ cols, g.is_valid b c = true → ∀ a : Int, -BIG ≤ a → a < beta →
      max a (min beta (fab (g.get_new_board b c pid) a).value) =
        max a (min beta (f2 (g.get_new_board b c pid)).value)) :
    ∀ (value alpha : Int) (evA mA : Nat) (cuA prA : Bool) (M : Int) (evM mM : Nat),
      alpha = max A value → alpha < beta →
      max A (min beta value) = max A (min beta M) →
      max A (min beta (abMaxLoop g pid fab b beta cols value alpha evA mA cuA prA).value) =
        max A (min beta (mmMaxLoop g pid f2 b cols M evM mM).value) := by
  induction cols with
  | nil =>
    intro value alpha evA mA cuA prA M evM mM hal halb hM
    exact hM
  | cons c rest ih =>
    intro value alpha evA mA cuA prA M evM mM hal halb hM
    simp only [abMaxLoop, mmMaxLoop]
    by_cases hc : g.is_valid b c = true
    · rw [if_pos hc, if_pos hc]
      have hw := hfa c (List.mem_cons_self c rest) hc alpha (by omega) halb
      by_cases hcut : beta ≤ max alpha (max value (fab (g.get_new_board b c pid) alpha).value)
      · rw [if_pos hcut]
        have hge := mmMaxLoop_value_ge_init g pid b f2 rest
          (max M (f2 (g.get_new_board b c pid)).value)
          (evM + (f2 (g.get_new_board b c pid)).evals)
          (max mM (f2 (g.get_new_board b c pid)).md)
        try dsimp only
        omega
      · rw [if_neg hcut]
        exact ih (fun c2 h2 h3 => hfa c2 (List.mem_cons_of_mem c h2) h3)
          (max value (fab (g.get_new_board b c pid) alpha).value)
          (max alpha (max value (fab (g.get_new_board b c pid) alpha).value))
          (evA + (fab (g.get_new_board b c pid) alpha).evals)
          (max mA (fab (g.get_new_board b c pid) alpha).md)
          (cuA || (fab (g.get_new_board b c pid) alpha).cut)
          (prA || (fab (g.get_new_board b c pid) alpha).pruned)
          (max M (f2 (g.get_new_board b c pid)).value)
          (evM + (f2 (g.get_new_board b c pid)).evals)
          (max mM (f2 (g.get_new_board b c pid)).md)
          (by omega) (by omega) (by omega)
    · rw [if_neg hc, if_neg hc]
      exact ih (fun c2 h2 h3 => hfa c2 (List.mem_cons_of_mem c h2) h3)
        value alpha evA mA cuA prA M evM mM hal halb hM

theorem abMinLoop_clamp (f2 : β → MMOut) (fab : β → Int → ABOut) (A beta0 : Int)
    (cols : List Nat)
    (hA : -BIG ≤ A) (hb0 : beta0 ≤ BIG) (hAb : A < beta0)
    (hfa : ∀ c ∈ cols, g.is_valid b c = true → ∀ bb : Int, A < bb → bb ≤ BIG →
      max A (min bb (fab (g.get_new_board b c opp) bb).value) =
        max A (min bb (f2 (g.get_new_board b c opp)).value)) :
    ∀ (value beta : Int) (evA mA : Nat) (cuA prA : Bool) (M : Int) (evM mM : Nat),
      beta = min beta0 value → A < beta →
      max A (min beta0 value) = max A (min beta0 M) →
      max A (min beta0 (abMinLoop g opp fab b A cols value beta evA mA cuA prA).value) =
        max A (min beta0 (mmMinLoop g opp f2 b cols M evM mM).value) := by
  induction cols with
  | nil =>
    intro value beta evA mA cuA prA M evM mM hbe hbeA hM
    exact hM
  | cons c rest ih =>
    intro value beta evA mA cuA prA M evM mM hbe hbeA hM
    simp only [abMinLoop, mmMinLoop]
    by_cases hc : g.is_valid b c = true
    · rw [if_pos hc, if_pos hc]
      have hw := hfa c (List.mem_cons_self c rest) hc beta hbeA (by omega)
      by_cases hcut : min beta (min value (fab (g.get_new_board b c opp) beta).value) ≤ A
      · rw [if_pos hcut]
        have hle := mmMinLoop_value_le g opp b f2 rest
          (min M (f2 (g.get_new_board b c opp)).value)
          (evM + (f2 (g.get_new_board b c opp)).evals)
          (max mM (f2 (g.get_new_board b c opp)).md)
        try dsimp only
        omega
      · rw [if_neg hcut]
        exact ih (fun c2 h2 h3 => hfa c2 (List.mem_cons_of_mem c h2) h3)
          (min value (fab (g.get_new_board b c opp) beta).value)
          (min beta (min value (fab (g.get_new_board b c opp) beta).value))
          (evA + (fab (g.get_new_board b c opp) beta).evals)
          (max mA (fab (g.get_new_board b c opp) beta).md)
          (cuA || (fab (g.get_new_board b c opp) beta).cut)
          (prA || (fab (g.get_new_board b c opp) beta).pruned)
          (min M (f2 (g.get_new_board b c opp)).value)
          (evM + (f2 (g.get_new_board b c opp)).evals)
          (max mM (f2 (g.get_new_board b c opp)).md)
          (by omega) (by omega) (by omega)
    · rw [if_neg hc, if_neg hc]
      exact ih (fun c2 h2 h3 => hfa c2 (List.mem_cons_of_mem c h2) h3)
        value beta evA mA cuA prA M evM mM hbe hbeA hM

theorem abRec_clamp :
    ∀ (fuel : Nat) (b : β) (depth : Int) (maximizing : Bool) (alpha beta : Int),
      -BIG ≤ alpha → beta ≤ BIG → alpha < beta →
      max alpha (min beta (abRec g pid opp fuel b depth alpha beta maximizing).value) =
        max alpha (min beta (mmRec g pid opp fuel b depth maximizing).value) := by
  intro fuel
  induction fuel with
  | zero => intro b depth maxim alpha beta hA hB hAB; rfl
  | succ fuel ih =>
    intro b depth maxim alpha beta hA hB hAB
    by_cases ht : terminal_or_depth g b depth = true
    · simp [abRec, mmRec, ht]
    · have hmax := abMaxLoop_clamp g pid b
        (fun b2 => mmRec g pid opp fuel b2 (depth - 1) false)
        (fun b2 a => abRec g pid opp fuel b2 (depth - 1) a beta false)
        alpha beta (List.range (g.width b)) hA hAB
        (fun c _ _ a ha hab => ih _ (depth - 1) false a beta ha hB hab)
        (-BIG) alpha 0 0 false false (-BIG) 0 0 (by omega) hAB rfl
      have hmin := abMinLoop_clamp g opp b
        (fun b2 => mmRec g pid opp fuel b2 (depth - 1) true)
        (fun b2 bb => abRec g pid opp fuel b2 (depth - 1) alpha bb true)
        alpha beta (List.range (g.width b)) hA hB hAB
        (fun c _ _ bb hbb1 hbb2 => ih _ (depth - 1) true alpha bb hA hbb2 hbb1)
        BIG beta 0 0 false false BIG 0 0 (by omega) hAB rfl
      cases maxim
      · simp only [mmRec, abRec, if_neg ht, Bool.false_eq_true, if_false]
        exact hmin
      · simp only [mmRec, abRec, if_neg ht, if_true]
        exact hmax

theorem rootLoop_equiv (f2 : β → MMOut) (fab : β → Int → ABOut)
    (cols : List Nat)
    (hfa : ∀ c ∈ cols, g.is_valid b c = true → ∀ a : Int, -BIG ≤ a → a < BIG →
      max a (min BIG (fab (g.get_new_board b c pid) a).value) =
        max a (min BIG (f2 (g.get_new_board b c pid)).value))
    (hdisj : ∀ c ∈ cols, g.is_valid b c = true → ∀ a : Int,
      (fab (g.get_new_board b c pid) a).value = (f2 (g.get_new_board b c pid)).value ∨
      ((fab (g.get_new_board b c pid) a).value ≤ BIG ∧
        (f2 (g.get_new_board b c pid)).value ≤ BIG)) :
    ∀ (bv : Int) (colM : Option Nat) (colA : Int) (evM mM : Nat)
      (psM : List (Nat × Int)) (evA mA : Nat) (cuA prA : Bool)
      (psA : List (Nat × Int)),
      -BIG ≤ bv →
      (∀ c0, colM = some c0 → colA = (c0 : Int)) →
      ((mmRootLoop g pid f2 b cols bv colM evM mM psM).value =
        (abRootLoop g pid fab b cols bv colA bv evA mA cuA prA psA).value) ∧
      ((mmRootLoop g pid f2 b cols bv colM evM mM psM).col = -1 ∨
        (mmRootLoop g pid f2 b cols bv colM evM mM psM).col =
          (abRootLoop g pid fab b cols bv colA bv evA mA cuA prA psA).col) := by
  induction cols with
  | nil =>
    intro bv colM colA evM mM psM evA mA cuA prA psA hbv hcol
    cases colM with
    | none => exact ⟨rfl, Or.inl rfl⟩
    | some c0 => exact ⟨rfl, Or.inr (hcol c0 rfl).symm⟩
  | cons c rest ih =>
    intro bv colM colA evM mM psM evA mA cuA prA psA hbv hcol
    simp only [mmRootLoop, abRootLoop]
    by_cases hc : g.is_valid b c = true
    · rw [if_pos hc, if_pos hc]
      have hwm := hdisj c (List.mem_cons_self c rest) hc bv
      have hiff1 : ((fab (g.get_new_board b c pid) bv).value > bv ↔
          (f2 (g.get_new_board b c pid)).value > bv) := by
        rcases hwm with heq | ⟨hw1, hm1⟩
        · rw [heq]
        · by_cases hbig : bv < BIG
          · have hfa1 := hfa c (List.mem_cons_self c rest) hc bv hbv hbig
            omega
          · omega
      have hiff2 : ((fab (g.get_new_board b c pid) bv).value > bv →
          (fab (g.get_new_board b c pid) bv).value =
            (f2 (g.get_new_board b c pid)).value) := by
        rcases hwm with heq | ⟨hw1, hm1⟩
        · intro _; exact heq
        · by_cases hbig : bv < BIG
          · have hfa1 := hfa c (List.mem_cons_self c rest) hc bv hbv hbig
            omega
          · omega
      by_cases hm2 : (f2 (g.get_new_board b c pid)).value > bv
      · have hw2 : (fab (g.get_new_board b c pid) bv).value > bv := hiff1.mpr hm2
        have hweq := hiff2 hw2
        rw [if_pos hm2, if_pos hw2]
        rw [show max bv (fab (g.get_new_board b c pid) bv).value =
            (fab (g.get_new_board b c pid) bv).value from by omega]
        rw [hweq]
        exact ih (fun c2 h2 h3 => hfa c2 (List.mem_cons_of_mem c h2) h3)
          (fun c2 h2 h3 => hdisj c2 (List.mem_cons_of_mem c h2) h3)
          ((f2 (g.get_new_board b c pid)).value) (some c) (c : Int)
          (evM + (f2 (g.get_new_board b c pid)).evals)
          (max mM (f2 (g.get_new_board b c pid)).md)
          (psM ++ [(c, (f2 (g.get_new_board b c pid)).value)])
          (evA + (fab (g.get_new_board b c pid) bv).evals)
          (max mA (fab (g.get_new_board b c pid) bv).md)
          (cuA || (fab (g.get_new_board b c pid) bv).cut)
          (prA || (fab (g.get_new_board b c pid) bv).pruned)
          (psA ++ [(c, (f2 (g.get_new_board b c pid)).value)])
          (by omega)
          (fun c0 h0 => by rw [← Option.some.inj h0])
      · have hw2 : ¬ (fab (g.get_new_board b c pid) bv).value > bv :=
          fun hw => hm2 (hiff1.mp hw)
        rw [if_neg hm2, if_neg hw2]
        rw [show max bv bv = bv from by omega]
        exact ih (fun c2 h2 h3 => hfa c2 (List.mem_cons_of_mem c h2) h3)
          (fun c2 h2 h3 => hdisj c2 (List.mem_cons_of_mem c h2) h3)
          bv colM colA
          (evM + (f2 (g.get_new_board b c pid)).evals)
          (max mM (f2 (g.get_new_board b c pid)).md)
          (psM ++ [(c, (f2 (g.get_new_board b c pid)).value)])
          (evA + (fab (g.get_new_board b c pid) bv).evals)
          (max mA (fab (g.get_new_board b c pid) bv).md)
          (cuA || (fab (g.get_new_board b c pid) bv).cut)
          (prA || (fab (g.get_new_board b c pid) bv).pruned)
          (psA ++ [(c, (fab (g.get_new_board b c pid) bv).value)])
          hbv hcol
    · rw [if_neg hc, if_neg hc]
      exact ih (fun c2 h2 h3 => hfa c2 (List.mem_cons_of_mem c h2) h3)
        (fun c2 h2 h3 => hdisj c2 (List.mem_cons_of_mem c h2) h3)
        bv colM colA evM mM psM evA mA cuA prA psA hbv hcol

end PruningEquivalence

/-- Counterexample to C1 as stated: with a heuristic evaluating to the
`-10**9` sentinel everywhere, on the 2x1 board whose column 0 is full and
column 1 legal (depth 2), no root child value ever strictly exceeds the
initial best value, so MinMax returns its sentinel `-1` while AlphaBeta
returns its default `0`: the chosen columns differ even though a legal
column exists. -/
theorem C1_counterexample_sentinel_no_update :
    (MinMaxPlayer.make_move (fun _ => 0) (fun _ _ => -BIG) 1 2 ⟨1, [[1], []]⟩).col
        = -1 ∧
      (AlphaBetaPlayer.make_move (fun _ => 0) (fun _ _ => -BIG) 1 2
          ⟨1, [[1], []]⟩).col = 0 ∧
      ¬ ((AlphaBetaPlayer.make_move (fun _ => 0) (fun _ _ => -BIG) 1 2
            ⟨1, [[1], []]⟩).col =
          (MinMaxPlayer.make_move (fun _ => 0) (fun _ _ => -BIG) 1 2
            ⟨1, [[1], []]⟩).col) ∧
      CBoard.is_valid ⟨1, [[1], []]⟩ 1 = true := by
  exact ⟨by decide, by decide, by decide, by decide⟩

/-- Claim C1, amended (corrected): for every board, win length, depth and
heuristic, the alpha-beta root decision value equals the plain minimax root
decision value, and the chosen columns agree whenever MinMax selects a column
at all (returns anything other than its `-1` sentinel).  In the remaining
case — no legal move, or every root child value at or below the `-10**9`
sentinel — MinMax returns `-1` while AlphaBeta returns its default `0`. -/
theorem C1_amended_pruning_equivalence {β : Type} (g : Game β) (pid : Nat)
    (depth : Int) (fuel : Nat) (b : β) :
    (AlphaBetaPlayer.make_moveF g pid depth fuel b).value =
      (MinMaxPlayer.make_moveF g pid depth fuel b).value ∧
    ((MinMaxPlayer.make_moveF g pid depth fuel b).col ≠ -1 →
      (AlphaBetaPlayer.make_moveF g pid depth fuel b).col =
        (MinMaxPlayer.make_moveF g pid depth fuel b).col) := by
  have hroot := rootLoop_equiv g pid b
    (fun b2 => mmRec g pid (opponentOf pid) fuel b2 (depth - 1) false)
    (fun b2 a => abRec g pid (opponentOf pid) fuel b2 (depth - 1) a BIG false)
    (List.range (g.width b))
    (fun c _ _ a ha hab =>
      abRec_clamp g pid (opponentOf pid) fuel _ (depth - 1) false a BIG ha
        (le_refl BIG) hab)
    (fun c _ _ a => abMin_call_disj g pid (opponentOf pid) fuel _ (depth - 1) a BIG)
    (-BIG) none 0 0 0 [] 0 0 false false [] (le_refl _) (fun c0 h0 => nomatch h0)
  constructor
  · exact hroot.1.symm
  · intro hne
    rcases hroot.2 with h | h
    · exact absurd h hne
    · exact h.symm

/-- Witness for the amended C1 on the empty 2x1 board with the zero heuristic
at depth 2: MinMax chooses column 0 (not the sentinel) and AlphaBeta chooses
the same column, with equal root values. -/
theorem C1_amended_pruning_equivalence_witness :
    (AlphaBetaPlayer.make_move (fun _ => 0) (fun _ _ => 0) 1 2 ⟨1, [[], []]⟩).value
        = (MinMaxPlayer.make_move (fun _ => 0) (fun _ _ => 0) 1 2
          ⟨1, [[], []]⟩).value ∧
      (AlphaBetaPlayer.make_move (fun _ => 0) (fun _ _ => 0) 1 2 ⟨1, [[], []]⟩).col
        = (MinMaxPlayer.make_move (fun _ => 0) (fun _ _ => 0) 1 2
          ⟨1, [[], []]⟩).col :=
  ⟨(C1_amended_pruning_equivalence (CGame (fun _ => 0) (fun _ _ => 0)) 1 2
      ((CBoard.emptyCells ⟨1, [[], []]⟩) + 1) ⟨1, [[], []]⟩).1,
    (C1_amended_pruning_equivalence (CGame (fun _ => 0) (fun _ _ => 0)) 1 2
      ((CBoard.emptyCells ⟨1, [[], []]⟩) + 1) ⟨1, [[], []]⟩).2 (by decide)⟩

/-- Claim C3 (code bug): with configured `depth = 0` the root loop calls
`rec(child, -1, ...)`, so the `depth == 0` test never fires and the search
expands past the root children until a terminal position.  On the empty
1-column, 2-row board with the piece-count heuristic (and no winner), the
root child holds one piece (direct evaluation `1`), yet both decisions report
value `2` — the evaluation of the grandchild reached by a further recursive
ply — and the nested call chain has length 2, not 1. -/
theorem C3_depth_zero_recurses :
    (MinMaxPlayer.make_move (fun _ => 0) (fun _ b => pieceCount b) 1 0
        ⟨2, [[]]⟩).value = 2 ∧
      (AlphaBetaPlayer.make_move (fun _ => 0) (fun _ b => pieceCount b) 1 0
          ⟨2, [[]]⟩).value = 2 ∧
      pieceCount (CBoard.get_new_board ⟨2, [[]]⟩ 0 1) = 1 ∧
      (MinMaxPlayer.make_move (fun _ => 0) (fun _ b => pieceCount b) 1 0
          ⟨2, [[]]⟩).md = 2 ∧
      (AlphaBetaPlayer.make_move (fun _ => 0) (fun _ b => pieceCount b) 1 0
          ⟨2, [[]]⟩).md = 2 := by
  refine ⟨by decide, by decide, by decide, by decide, by decide⟩
